import Mathlib

/-!
Verification of the bounded LRU/TTL cache of
`src/assignments/hw1/challenge-3-cache/cache.ts` (class `Cache<K, V>`), with
its storage adapters (`MemoryAdapter`, `FileAdapter`, `LocalStorageAdapter`)
abstracted as the persisted snapshot they hold.

Modelling conventions:
* JavaScript `Map<K, CacheEntry<V>>` is an association list with pairwise
  distinct keys; `Map.set` overwrites in place, `Map.delete` removes the key.
* `Date.now()` is an explicit `now : Nat` argument threaded into every
  operation (all `Date.now()` calls inside one synchronous operation body
  observe the same instant).
* The storage adapter is part of the state: `stored` is the snapshot the
  adapter currently holds, and `saves` counts the `storage.save(...)` calls
  issued, so that persistence side effects are observable.
* The `while (this.data.size >= this.maxSize)` eviction loop is run with
  fuel `accessOrder.length`; on every state satisfying the bijection
  invariant (all states the class can actually reach) this performs exactly
  the iterations the JavaScript loop performs.
-/

namespace Challenge3

/-- `CacheEntry<V>` from `types.ts`: cached value, absolute expiry instant
(`null` = never expires), and last-access instant for LRU tracking. -/
structure CacheEntry (V : Type) where
  value : V
  expiresAt : Option Nat
  lastAccessed : Nat
deriving DecidableEq

variable {K : Type} {V : Type}

/-- `Map.get`: the entry stored at `key`, if any. -/
def mapGet [DecidableEq K] : List (K × CacheEntry V) → K → Option (CacheEntry V)
  | [], _ => none
  | (k, e) :: rest, key => if k = key then some e else mapGet rest key

/-- `Map.set`: overwrite in place if the key is present, else append. -/
def mapSet [DecidableEq K] : List (K × CacheEntry V) → K → CacheEntry V → List (K × CacheEntry V)
  | [], key, e => [(key, e)]
  | (k, e0) :: rest, key, e =>
    if k = key then (k, e) :: rest else (k, e0) :: mapSet rest key e

/-- `Map.delete`: remove the (unique) binding of the key, if present. -/
def mapDelete [DecidableEq K] : List (K × CacheEntry V) → K → List (K × CacheEntry V)
  | [], _ => []
  | (k, e) :: rest, key => if k = key then rest else (k, e) :: mapDelete rest key

/-- `indexOf` + `splice(index, 1)`: remove the first occurrence of a key
from the access-order array, if present. -/
def removeFirst [DecidableEq K] : List K → K → List K
  | [], _ => []
  | k :: rest, key => if k = key then rest else k :: removeFirst rest key

/-- The `CacheConfig` fields the cache logic reads (`maxSize`,
`defaultTTL`, `persistOnChange`), after the constructor applied its
defaults. -/
structure Config where
  maxSize : Nat
  defaultTTL : Option Nat
  persistOnChange : Bool
deriving DecidableEq

/-- The mutable state of one `Cache<K, V>` instance together with its
storage adapter: `data` and `accessOrder` are the private fields of the
class, `stored` is the snapshot the adapter holds, `saves` counts
`storage.save` invocations. -/
structure Cache (K : Type) (V : Type) where
  data : List (K × CacheEntry V)
  accessOrder : List K
  stored : List (K × CacheEntry V)
  saves : Nat
deriving DecidableEq

namespace Cache

variable [DecidableEq K]

/-- `persist()`: when `persistOnChange` is set, `storage.save(this.data)`. -/
def persist (cfg : Config) (c : Cache K V) : Cache K V :=
  if cfg.persistOnChange then { c with stored := c.data, saves := c.saves + 1 } else c

/-- `isExpired(entry)`: `expiresAt` non-null and `Date.now() > expiresAt`. -/
def isExpired (now : Nat) (e : CacheEntry V) : Bool :=
  match e.expiresAt with
  | none => false
  | some t => decide (now > t)

/-- `touch(key)`: move the key to the most-recently-used end of
`accessOrder` and refresh the entry's `lastAccessed`. -/
def touch (key : K) (now : Nat) (c : Cache K V) : Cache K V :=
  match mapGet c.data key with
  | some e => { c with accessOrder := removeFirst c.accessOrder key ++ [key],
                       data := mapSet c.data key { e with lastAccessed := now } }
  | none => { c with accessOrder := removeFirst c.accessOrder key ++ [key] }

/-- `evictLRU()`: remove the head of `accessOrder` from both structures;
no-op when `accessOrder` is empty. -/
def evictLRU (c : Cache K V) : Cache K V :=
  match c.accessOrder with
  | [] => c
  | lru :: rest => { c with accessOrder := rest, data := mapDelete c.data lru }

/-- The `while (this.data.size >= this.maxSize) this.evictLRU()` loop of
`set`, with explicit fuel (instantiated with `accessOrder.length`, which
bounds the iterations the JavaScript loop performs on every state
satisfying the bijection invariant). -/
def evictWhile (maxSize : Nat) : Nat → Cache K V → Cache K V
  | 0, c => c
  | fuel + 1, c =>
    if c.data.length ≥ maxSize then evictWhile maxSize fuel (evictLRU c) else c

/-- `get(key)`: not-found on absent key; expired entry is deleted and
reported not-found; otherwise touch, persist, and return the value. -/
def get (cfg : Config) (key : K) (now : Nat) (c : Cache K V) :
    Option V × Cache K V :=
  match mapGet c.data key with
  | none => (none, c)
  | some e =>
    if isExpired now e then
      (none, persist cfg { c with data := mapDelete c.data key,
                                  accessOrder := removeFirst c.accessOrder key })
    else
      (some e.value, persist cfg (touch key now c))

/-- `delete(key)`: remove from both structures (no-op on the structures if
absent) and persist. -/
def delete (cfg : Config) (key : K) (c : Cache K V) : Cache K V :=
  persist cfg { c with data := mapDelete c.data key,
                       accessOrder := removeFirst c.accessOrder key }

/-- `ttl ?? this.defaultTTL` of `set`. -/
def resolveTTL (cfg : Config) (ttl : Option Nat) : Option Nat :=
  match ttl with
  | some t => some t
  | none => cfg.defaultTTL

/-- The entry object `set` stores: `{ value, expiresAt, lastAccessed: now }`
with `expiresAt = now + effective TTL` when a TTL is resolved, else null. -/
def newEntry (cfg : Config) (ttl : Option Nat) (now : Nat) (value : V) : CacheEntry V :=
  { value := value,
    expiresAt := (resolveTTL cfg ttl).map (fun t => now + t),
    lastAccessed := now }

/-- The new-key branch of `set`: run the eviction loop, then append the
new entry to `data` and its key to `accessOrder`. -/
def insertNew (cfg : Config) (key : K) (e : CacheEntry V) (c : Cache K V) :
    Cache K V :=
  { evictWhile cfg.maxSize c.accessOrder.length c with
      data := mapSet (evictWhile cfg.maxSize c.accessOrder.length c).data key e,
      accessOrder :=
        (evictWhile cfg.maxSize c.accessOrder.length c).accessOrder ++ [key] }

/-- `set(key, value, ttl?)`: resolve the effective TTL (`ttl ?? defaultTTL`)
into an absolute `expiresAt` (`now + ttl`, or null); overwrite-and-touch if
the key exists, else evict while at capacity and append the new entry;
persist. -/
def set (cfg : Config) (key : K) (value : V) (ttl : Option Nat) (now : Nat)
    (c : Cache K V) : Cache K V :=
  persist cfg
    (if (mapGet c.data key).isSome then
      touch key now
        { c with data := mapSet c.data key (newEntry cfg ttl now value) }
    else
      insertNew cfg key (newEntry cfg ttl now value) c)

/-- `has(key)`: existence check with the same opportunistic expiry delete
as `get`. -/
def has (cfg : Config) (key : K) (now : Nat) (c : Cache K V) :
    Bool × Cache K V :=
  match mapGet c.data key with
  | none => (false, c)
  | some e => if isExpired now e then (false, delete cfg key c) else (true, c)

/-- `clear()`: empty both structures and `storage.clear()` (the adapter
erases its snapshot; this is not a `save`, so `saves` is unchanged). -/
def clear (c : Cache K V) : Cache K V :=
  { c with data := [], accessOrder := [], stored := [] }

/-- `size()`: current entry count (not expiry-aware). -/
def size (c : Cache K V) : Nat := c.data.length

/-- `keys()`: all keys currently in `data` (not expiry-aware). -/
def keys (c : Cache K V) : List K := c.data.map Prod.fst

/-- The survival test of `init`'s load loop:
`entry.expiresAt === null || entry.expiresAt > now`. -/
def entryAlive (now : Nat) (e : CacheEntry V) : Bool :=
  match e.expiresAt with
  | none => true
  | some t => decide (t > now)

/-- The `?? 0` lookup the load-time sort comparator performs:
`this.data.get(a)?.lastAccessed ?? 0`. -/
def lastAccessedOf [DecidableEq K] (data : List (K × CacheEntry V)) (k : K) : Nat :=
  match mapGet data k with
  | some e => e.lastAccessed
  | none => 0

/-- Comparison by a numeric measure, the shape of the load-time sort
comparator `(a, b) => lastAccessed(a) - lastAccessed(b)`. -/
def leBy {α : Type} (m : α → Nat) (a b : α) : Prop := m a ≤ m b

instance {α : Type} (m : α → Nat) : DecidableRel (leBy m) :=
  fun a b => Nat.decLe (m a) (m b)

instance {α : Type} (m : α → Nat) : IsTotal α (leBy m) :=
  ⟨fun a b => Nat.le_total (m a) (m b)⟩

instance {α : Type} (m : α → Nat) : IsTrans α (leBy m) :=
  ⟨fun _ _ _ h h' => Nat.le_trans h h'⟩

/-- The body of `init()`'s load: keep the entries of the loaded snapshot
that are still alive, push their keys in load order, then stable-sort the
keys ascending by `lastAccessed` (JavaScript `Array.prototype.sort` is
stable, as is `List.insertionSort`). The adapter still holds `loaded`;
a fresh instance has issued no saves. -/
def hydrate (loaded : List (K × CacheEntry V)) (now : Nat) : Cache K V :=
  { data := loaded.filter (fun p => entryAlive now p.2),
    accessOrder :=
      List.insertionSort
        (leBy (lastAccessedOf (loaded.filter (fun p => entryAlive now p.2))))
        ((loaded.filter (fun p => entryAlive now p.2)).map Prod.fst),
    stored := loaded,
    saves := 0 }

/-- One public operation of the class, with the instant at which it runs. -/
inductive Op (K V : Type) where
  | get (key : K) (now : Nat)
  | set (key : K) (value : V) (ttl : Option Nat) (now : Nat)
  | del (key : K)
  | has (key : K) (now : Nat)
  | clear
deriving DecidableEq

/-- Run one operation, keeping only the state (return values dropped). -/
def applyOp (cfg : Config) (c : Cache K V) : Op K V → Cache K V
  | .get key now => (get cfg key now c).2
  | .set key value ttl now => set cfg key value ttl now c
  | .del key => delete cfg key c
  | .has key now => (has cfg key now c).2
  | .clear => clear c

/-- Run a sequence of operations. -/
def runOps (cfg : Config) (c : Cache K V) (ops : List (Op K V)) : Cache K V :=
  ops.foldl (applyOp cfg) c

/-- The bijection invariant of the class: `data`'s keys are pairwise
distinct (it is a `Map`), `accessOrder` has no duplicates, and both hold
exactly the same keys. -/
def WF (c : Cache K V) : Prop :=
  (c.data.map Prod.fst).Nodup ∧ c.accessOrder.Nodup ∧
    ∀ k, k ∈ c.accessOrder ↔ k ∈ c.data.map Prod.fst

/-- The state of a freshly hydrated instance whose adapter held nothing
(`MemoryAdapter.load`, or `FileAdapter.load` with no file): exactly
`hydrate [] now`. -/
def emptyCache : Cache K V :=
  { data := [], accessOrder := [], stored := [], saves := 0 }

/-- A sequence of `set` calls with explicit TTL omitted, one per key of
`ks`, with per-key value `f k` and per-key call instant `τ k`. -/
def setSeq (cfg : Config) (f : K → V) (τ : K → Nat) (ks : List K)
    (c : Cache K V) : Cache K V :=
  ks.foldl (fun c k => set cfg k (f k) none (τ k) c) c

/-- A sequence of `set(key, value, ttl?)` calls, each with its call
instant. -/
def applyWrites (cfg : Config) (ws : List (K × V × Option Nat × Nat))
    (c : Cache K V) : Cache K V :=
  runOps cfg c (ws.map (fun w => Op.set w.1 w.2.1 w.2.2.1 w.2.2.2))

/-- The spec's wording for which snapshot entries survive hydration: the
entry is kept iff its `expiresAt` is null or not already in the past at
load time (that is, not strictly before `now`). Stated from the spec's
words, to be compared against what `hydrate` actually does. -/
def specPresentAfterLoad (e : CacheEntry V) (now : Nat) : Prop :=
  e.expiresAt = none ∨ ∃ t, e.expiresAt = some t ∧ ¬ t < now

end Cache

/-! ### A cooperative-scheduling model of `init()`

`init()` implements lazy at-most-once loading: the first caller finds
`initPromise` null, synchronously stores a fresh in-flight promise and
starts `storage.load()`; every later caller awaits that same promise.
Only `get`, `set`, `delete`, `has` and `clear` begin with
`await this.init()`; `size()` and `keys()` are synchronous methods that
never call `init()` and return without issuing or awaiting any load.  The
target environments are single-threaded-cooperative, so the null-check
and the assignment of `initPromise` happen atomically (no suspension
point lies between them).  The model: a list of queued operations, each
either `awaited` (one of `get`/`set`/`delete`/`has`/`clear`, which first
runs `init()` synchronously up to its first `await` — event `start` —
then waits for the shared load — event `loadDone` — then completes its
body — event `finish`) or `sync` (`size`/`keys`, which complete in one
synchronous step — event `finishSync` — regardless of the load's state).
`loads` counts how many `storage.load()` calls were issued. -/

namespace InitModel

/-- Where the shared lazy load stands: no caller has run `init()` yet, the
single load is in flight (`initPromise` set, the done flag still false),
or the load resolved (the done flag set at the end of the async body). -/
inductive InitPhase where
  | notStarted
  | loading
  | ready
deriving DecidableEq

/-- Where one queued operation stands: not yet scheduled, suspended on
the awaited shared load, or completed. -/
inductive TaskPhase where
  | pending
  | awaitingLoad
  | done
deriving DecidableEq

/-- Which kind of cache method a queued operation is: `awaited` methods
(`get`/`set`/`delete`/`has`/`clear`) begin with `await this.init()`;
`sync` methods (`size`/`keys`) never touch `init()`. -/
inductive OpKind where
  | awaited
  | sync
deriving DecidableEq

/-- One queued operation: its method kind and its current phase. -/
structure Task where
  kind : OpKind
  phase : TaskPhase
deriving DecidableEq

/-- Global state: the phase of the shared load, the queued operations,
and the number of `storage.load()` invocations issued so far. -/
structure Sys where
  phase : InitPhase
  tasks : List Task
  loads : Nat
deriving DecidableEq

/-- Scheduler events: awaited task `i` runs synchronously through
`init()` up to its first suspension; sync task `i` (`size`/`keys`) runs
its whole synchronous body and returns; the in-flight load resolves;
awaited task `i` (already past the await) resumes and completes its
body. -/
inductive Event where
  | start (i : Nat)
  | finishSync (i : Nat)
  | loadDone
  | finish (i : Nat)
deriving DecidableEq

/-- One scheduler step; `none` when the event is not enabled.  `start`
mirrors `init()`: if no load was ever started, synchronously create the
in-flight promise (phase `loading`, `loads + 1`); otherwise join the
existing promise (a duplicate load is never issued).  `finishSync`
mirrors `size()`/`keys()`: it is enabled in every load phase and neither
issues nor awaits a load.  `finish` is enabled only once the load
resolved: an awaited operation's body never runs before the loaded state
is in place. -/
def step (s : Sys) : Event → Option Sys
  | .start i =>
    if s.tasks.get? i = some ⟨.awaited, .pending⟩ then
      if s.phase = .notStarted then
        some { phase := .loading, tasks := s.tasks.set i ⟨.awaited, .awaitingLoad⟩,
               loads := s.loads + 1 }
      else
        some { s with tasks := s.tasks.set i ⟨.awaited, .awaitingLoad⟩ }
    else none
  | .finishSync i =>
    if s.tasks.get? i = some ⟨.sync, .pending⟩ then
      some { s with tasks := s.tasks.set i ⟨.sync, .done⟩ }
    else none
  | .loadDone =>
    if s.phase = .loading then some { s with phase := .ready } else none
  | .finish i =>
    if s.phase = .ready ∧ s.tasks.get? i = some ⟨.awaited, .awaitingLoad⟩ then
      some { s with tasks := s.tasks.set i ⟨.awaited, .done⟩ }
    else none

/-- Run a sequence of scheduler events; `none` when some event was not
enabled. -/
def run (s : Sys) : List Event → Option Sys
  | [] => some s
  | ev :: evs =>
    match step s ev with
    | some s' => run s' evs
    | none => none

/-- The state before anything ran: one pending operation per requested
method kind, no load started. -/
def freshSys (kinds : List OpKind) : Sys :=
  { phase := .notStarted, tasks := kinds.map (fun k => ⟨k, .pending⟩),
    loads := 0 }

/-- The safety invariant: no load is issued before the first awaited
caller, at most (and from then on exactly) one load ever, and a completed
awaited operation implies the load resolved. -/
def SysInv (s : Sys) : Prop :=
  (s.phase = .notStarted → s.loads = 0) ∧
  (s.phase ≠ .notStarted → s.loads = 1) ∧
  (Task.mk OpKind.awaited TaskPhase.done ∈ s.tasks → s.phase = .ready)

end InitModel

namespace Cache

variable [DecidableEq K]

/-! ### Lemmas about the `Map` / array primitives -/

theorem mapGet_eq_none_iff {l : List (K × CacheEntry V)} {k : K} :
    mapGet l k = none ↔ k ∉ l.map Prod.fst := by
  induction l with
  | nil => simp [mapGet]
  | cons p rest ih =>
    obtain ⟨k0, e0⟩ := p
    by_cases h : k0 = k
    · subst h; simp [mapGet]
    · simp [mapGet, h, ih, Ne.symm h]

theorem mapGet_isSome_iff {l : List (K × CacheEntry V)} {k : K} :
    (mapGet l k).isSome = true ↔ k ∈ l.map Prod.fst := by
  rw [Option.isSome_iff_ne_none, not_iff_comm, ← mapGet_eq_none_iff]

theorem mapGet_mapSet_self {l : List (K × CacheEntry V)} {k : K} {e : CacheEntry V} :
    mapGet (mapSet l k e) k = some e := by
  induction l with
  | nil => simp [mapSet, mapGet]
  | cons p rest ih =>
    obtain ⟨k0, e0⟩ := p
    by_cases h : k0 = k
    · subst h; simp [mapSet, mapGet]
    · simp [mapSet, mapGet, h, ih]

theorem mapGet_mapSet_ne {l : List (K × CacheEntry V)} {k k' : K} {e : CacheEntry V}
    (h : k' ≠ k) : mapGet (mapSet l k e) k' = mapGet l k' := by
  have hkk : ¬ (k = k') := fun he => h he.symm
  induction l with
  | nil => simp [mapSet, mapGet, hkk]
  | cons p rest ih =>
    obtain ⟨k0, e0⟩ := p
    by_cases hk : k0 = k
    · subst hk; simp [mapSet, mapGet, hkk]
    · by_cases hk' : k0 = k' <;> simp [mapSet, mapGet, hk, hk', ih, h, hkk]

theorem mapSet_absent {l : List (K × CacheEntry V)} {k : K} {e : CacheEntry V}
    (h : k ∉ l.map Prod.fst) : mapSet l k e = l ++ [(k, e)] := by
  induction l with
  | nil => simp [mapSet]
  | cons p rest ih =>
    obtain ⟨k0, e0⟩ := p
    simp only [List.map_cons, List.mem_cons] at h
    push_neg at h
    simp [mapSet, Ne.symm h.1, ih h.2]

theorem mapSet_keys_present {l : List (K × CacheEntry V)} {k : K} {e : CacheEntry V}
    (h : k ∈ l.map Prod.fst) : (mapSet l k e).map Prod.fst = l.map Prod.fst := by
  induction l with
  | nil => simp at h
  | cons p rest ih =>
    obtain ⟨k0, e0⟩ := p
    by_cases hk : k0 = k
    · subst hk; simp [mapSet]
    · simp only [List.map_cons, List.mem_cons] at h
      rcases h with h | h
      · exact absurd h.symm hk
      · simp [mapSet, hk, ih h]

theorem mapSet_length_present {l : List (K × CacheEntry V)} {k : K} {e : CacheEntry V}
    (h : k ∈ l.map Prod.fst) : (mapSet l k e).length = l.length := by
  have := mapSet_keys_present (l := l) (k := k) (e := e) h
  have h1 : ((mapSet l k e).map Prod.fst).length = (l.map Prod.fst).length := by rw [this]
  simpa using h1

theorem mapDelete_keys {l : List (K × CacheEntry V)} {k : K} :
    (mapDelete l k).map Prod.fst = removeFirst (l.map Prod.fst) k := by
  induction l with
  | nil => simp [mapDelete, removeFirst]
  | cons p rest ih =>
    obtain ⟨k0, e0⟩ := p
    by_cases h : k0 = k <;> simp [mapDelete, removeFirst, h, ih]

theorem mapDelete_absent {l : List (K × CacheEntry V)} {k : K}
    (h : k ∉ l.map Prod.fst) : mapDelete l k = l := by
  induction l with
  | nil => simp [mapDelete]
  | cons p rest ih =>
    obtain ⟨k0, e0⟩ := p
    simp only [List.map_cons, List.mem_cons] at h
    push_neg at h
    simp [mapDelete, Ne.symm h.1, ih h.2]

theorem mapGet_mapDelete_self {l : List (K × CacheEntry V)} {k : K}
    (hnd : (l.map Prod.fst).Nodup) : mapGet (mapDelete l k) k = none := by
  induction l with
  | nil => simp [mapDelete, mapGet]
  | cons p rest ih =>
    obtain ⟨k0, e0⟩ := p
    simp only [List.map_cons, List.nodup_cons] at hnd
    by_cases h : k0 = k
    · subst h
      simp [mapDelete, mapGet_eq_none_iff, hnd.1]
    · simp [mapDelete, mapGet, h, ih hnd.2]

theorem mapGet_mapDelete_ne {l : List (K × CacheEntry V)} {k k' : K}
    (h : k' ≠ k) : mapGet (mapDelete l k) k' = mapGet l k' := by
  have hkk : ¬ (k = k') := fun he => h he.symm
  induction l with
  | nil => simp [mapDelete, mapGet]
  | cons p rest ih =>
    obtain ⟨k0, e0⟩ := p
    by_cases hk : k0 = k
    · subst hk; simp [mapDelete, mapGet, hkk]
    · by_cases hk' : k0 = k' <;> simp [mapDelete, mapGet, hk, hk', ih, h, hkk]

theorem removeFirst_sublist (l : List K) (k : K) :
    List.Sublist (removeFirst l k) l := by
  induction l with
  | nil => simp [removeFirst]
  | cons k0 rest ih =>
    by_cases h : k0 = k
    · rw [removeFirst, if_pos h]
      exact List.sublist_cons_self k0 rest
    · rw [removeFirst, if_neg h]
      exact ih.cons₂ k0

theorem removeFirst_nodup {l : List K} {k : K} (h : l.Nodup) :
    (removeFirst l k).Nodup :=
  (removeFirst_sublist l k).nodup h

theorem removeFirst_absent {l : List K} {k : K} (h : k ∉ l) :
    removeFirst l k = l := by
  induction l with
  | nil => simp [removeFirst]
  | cons k0 rest ih =>
    simp only [List.mem_cons] at h
    push_neg at h
    simp [removeFirst, Ne.symm h.1, ih h.2]

theorem mem_removeFirst_iff {l : List K} {k a : K} (hnd : l.Nodup) :
    a ∈ removeFirst l k ↔ a ∈ l ∧ a ≠ k := by
  induction l with
  | nil => simp [removeFirst]
  | cons k0 rest ih =>
    have hk0 : k0 ∉ rest := (List.nodup_cons.mp hnd).1
    have hnd' : rest.Nodup := (List.nodup_cons.mp hnd).2
    by_cases h : k0 = k
    · subst h
      simp only [removeFirst, if_pos rfl, List.mem_cons]
      constructor
      · intro ha
        refine ⟨Or.inr ha, ?_⟩
        intro he
        subst he
        exact hk0 ha
      · rintro ⟨rfl | ha, hne⟩
        · exact absurd rfl hne
        · exact ha
    · simp only [removeFirst, if_neg h, List.mem_cons, ih hnd']
      constructor
      · rintro (rfl | ⟨ha, hne⟩)
        · exact ⟨Or.inl rfl, fun he => h he⟩
        · exact ⟨Or.inr ha, hne⟩
      · rintro ⟨rfl | ha, hne⟩
        · exact Or.inl rfl
        · exact Or.inr ⟨ha, hne⟩

theorem removeFirst_length_mem {l : List K} {k : K} (h : k ∈ l) :
    (removeFirst l k).length + 1 = l.length := by
  induction l with
  | nil => simp at h
  | cons k0 rest ih =>
    by_cases hk : k0 = k
    · simp [removeFirst, hk]
    · rcases List.mem_cons.mp h with h' | h'
      · exact absurd h'.symm hk
      · simpa [removeFirst, hk] using ih h'

theorem mapDelete_sublist (l : List (K × CacheEntry V)) (k : K) :
    List.Sublist (mapDelete l k) l := by
  induction l with
  | nil => exact List.Sublist.refl _
  | cons p rest ih =>
    obtain ⟨k0, e0⟩ := p
    show List.Sublist (if k0 = k then rest else (k0, e0) :: mapDelete rest k) _
    by_cases h : k0 = k
    · rw [if_pos h]
      exact List.sublist_cons_self (k0, e0) rest
    · rw [if_neg h]
      exact ih.cons₂ (k0, e0)

theorem mapDelete_length_le (l : List (K × CacheEntry V)) (k : K) :
    (mapDelete l k).length ≤ l.length :=
  (mapDelete_sublist l k).length_le

theorem mapDelete_length_mem {l : List (K × CacheEntry V)} {k : K}
    (h : k ∈ l.map Prod.fst) : (mapDelete l k).length + 1 = l.length := by
  have h1 : ((mapDelete l k).map Prod.fst).length + 1 = (l.map Prod.fst).length := by
    rw [mapDelete_keys]
    exact removeFirst_length_mem h
  simpa using h1

theorem mapGet_append_of_some {l l' : List (K × CacheEntry V)} {k : K} {e : CacheEntry V}
    (h : mapGet l k = some e) : mapGet (l ++ l') k = some e := by
  induction l with
  | nil => simp [mapGet] at h
  | cons p rest ih =>
    obtain ⟨k0, e0⟩ := p
    by_cases hk : k0 = k
    · simp only [mapGet, if_pos hk] at h
      simp [mapGet, hk, h]
    · simp only [mapGet, if_neg hk] at h
      simp [mapGet, hk, ih h]

theorem mapGet_append_of_none {l l' : List (K × CacheEntry V)} {k : K}
    (h : mapGet l k = none) : mapGet (l ++ l') k = mapGet l' k := by
  induction l with
  | nil => simp
  | cons p rest ih =>
    obtain ⟨k0, e0⟩ := p
    by_cases hk : k0 = k
    · simp [mapGet, hk] at h
    · simp only [mapGet, if_neg hk] at h
      simp [mapGet, hk, ih h]

theorem mapGet_map_self {g : K → CacheEntry V} {ks : List K} {k : K} (h : k ∈ ks) :
    mapGet (ks.map (fun x => (x, g x))) k = some (g k) := by
  induction ks with
  | nil => simp at h
  | cons k0 rest ih =>
    by_cases hk : k0 = k
    · subst hk; simp [mapGet]
    · rcases List.mem_cons.mp h with h' | h'
      · exact absurd h'.symm hk
      · simp [mapGet, hk, ih h']

/-! ### The bijection invariant -/

@[simp] theorem persist_data (cfg : Config) (c : Cache K V) :
    (persist cfg c).data = c.data := by
  unfold persist; split <;> rfl

@[simp] theorem persist_accessOrder (cfg : Config) (c : Cache K V) :
    (persist cfg c).accessOrder = c.accessOrder := by
  unfold persist; split <;> rfl

theorem persist_of_flag {cfg : Config} (h : cfg.persistOnChange = true) (c : Cache K V) :
    persist cfg c = { c with stored := c.data, saves := c.saves + 1 } := by
  unfold persist; rw [h]; rfl

theorem wf_persist {cfg : Config} {c : Cache K V} (h : WF c) : WF (persist cfg c) := by
  unfold persist; split
  · exact h
  · exact h

theorem WF.order_length {c : Cache K V} (h : WF c) :
    c.accessOrder.length = c.data.length := by
  obtain ⟨hd, ho, hiff⟩ := h
  have hperm : c.accessOrder.Perm (c.data.map Prod.fst) :=
    (List.perm_ext_iff_of_nodup ho hd).mpr hiff
  simpa using hperm.length_eq

theorem wf_removeBoth {c : Cache K V} (key : K) (h : WF c) :
    WF { c with data := mapDelete c.data key,
                accessOrder := removeFirst c.accessOrder key } := by
  obtain ⟨hd, ho, hiff⟩ := h
  refine ⟨?_, removeFirst_nodup ho, ?_⟩
  · rw [mapDelete_keys]
    exact removeFirst_nodup hd
  · intro a
    rw [mapDelete_keys, mem_removeFirst_iff ho, mem_removeFirst_iff hd, hiff a]

theorem wf_delete {cfg : Config} {c : Cache K V} {key : K} (h : WF c) :
    WF (delete cfg key c) :=
  wf_persist (wf_removeBoth key h)

theorem wf_touch {c : Cache K V} {key : K} {now : Nat}
    (h : WF c) (hk : key ∈ c.data.map Prod.fst) : WF (touch key now c) := by
  obtain ⟨hd, ho, hiff⟩ := h
  have hordkey : (removeFirst c.accessOrder key ++ [key]).Nodup := by
    refine List.Nodup.append (removeFirst_nodup ho) (List.nodup_singleton key) ?_
    intro a ha ha'
    rw [List.mem_singleton] at ha'
    subst ha'
    exact ((mem_removeFirst_iff ho).mp ha).2 rfl
  have hmem : ∀ a, a ∈ removeFirst c.accessOrder key ++ [key] ↔ a ∈ c.data.map Prod.fst := by
    intro a
    simp only [List.mem_append, List.mem_singleton, mem_removeFirst_iff ho]
    constructor
    · rintro (⟨ha, _⟩ | rfl)
      · exact (hiff a).mp ha
      · exact hk
    · intro ha
      by_cases hak : a = key
      · exact Or.inr hak
      · exact Or.inl ⟨(hiff a).mpr ha, hak⟩
  unfold touch
  cases hget : mapGet c.data key with
  | none =>
    rw [mapGet_eq_none_iff] at hget
    exact absurd hk hget
  | some e =>
    refine ⟨?_, hordkey, ?_⟩
    · rwa [mapSet_keys_present hk]
    · intro a
      rw [mapSet_keys_present hk]
      exact hmem a

theorem evictLRU_eq_nil {c : Cache K V} (h : c.accessOrder = []) :
    evictLRU c = c := by
  unfold evictLRU
  rw [h]

theorem evictLRU_eq_cons {c : Cache K V} {lru : K} {rest : List K}
    (h : c.accessOrder = lru :: rest) :
    evictLRU c = { c with accessOrder := rest, data := mapDelete c.data lru } := by
  unfold evictLRU
  rw [h]

theorem evictLRU_keys_sublist (c : Cache K V) :
    List.Sublist ((evictLRU c).data.map Prod.fst) (c.data.map Prod.fst) := by
  cases ho : c.accessOrder with
  | nil => rw [evictLRU_eq_nil ho]
  | cons lru rest =>
    rw [evictLRU_eq_cons ho]
    show List.Sublist ((mapDelete c.data lru).map Prod.fst) _
    rw [mapDelete_keys]
    exact (removeFirst_sublist _ _)

theorem wf_evictLRU {c : Cache K V} (h : WF c) : WF (evictLRU c) := by
  obtain ⟨hd, ho, hiff⟩ := h
  cases horder : c.accessOrder with
  | nil => rw [evictLRU_eq_nil horder]; exact ⟨hd, ho, hiff⟩
  | cons lru rest =>
    rw [evictLRU_eq_cons horder]
    have ho' : (lru :: rest).Nodup := horder ▸ ho
    have hlru : lru ∉ rest := (List.nodup_cons.mp ho').1
    refine ⟨?_, (List.nodup_cons.mp ho').2, ?_⟩
    · show ((mapDelete c.data lru).map Prod.fst).Nodup
      rw [mapDelete_keys]
      exact removeFirst_nodup hd
    · intro a
      show a ∈ rest ↔ a ∈ (mapDelete c.data lru).map Prod.fst
      rw [mapDelete_keys, mem_removeFirst_iff hd, ← hiff a, horder, List.mem_cons]
      constructor
      · intro ha
        exact ⟨Or.inr ha, fun he => hlru (he ▸ ha)⟩
      · rintro ⟨rfl | ha, hne⟩
        · exact absurd rfl hne
        · exact ha

theorem evictWhile_spec (cap : Nat) (hcap : 1 ≤ cap) :
    ∀ (fuel : Nat) (c : Cache K V), WF c → c.data.length ≤ fuel + (cap - 1) →
      WF (evictWhile cap fuel c) ∧
      (evictWhile cap fuel c).data.length ≤ cap - 1 ∧
      List.Sublist ((evictWhile cap fuel c).data.map Prod.fst) (c.data.map Prod.fst)
  | 0, c, hwf, hlen => ⟨hwf, by simpa using hlen, List.Sublist.refl _⟩
  | fuel + 1, c, hwf, hlen => by
    rw [evictWhile]
    by_cases hge : c.data.length ≥ cap
    · rw [if_pos hge]
      have horder : c.accessOrder.length = c.data.length := hwf.order_length
      have hlen' : (evictLRU c).data.length + 1 = c.data.length := by
        cases ho : c.accessOrder with
        | nil =>
          rw [ho] at horder
          simp only [List.length_nil] at horder
          omega
        | cons lru rest =>
          have hlru : lru ∈ c.data.map Prod.fst :=
            (hwf.2.2 lru).mp (ho ▸ List.mem_cons_self lru rest)
          rw [evictLRU_eq_cons ho]
          exact mapDelete_length_mem hlru
      have ih := evictWhile_spec cap hcap fuel (evictLRU c) (wf_evictLRU hwf) (by omega)
      exact ⟨ih.1, ih.2.1, ih.2.2.trans (evictLRU_keys_sublist c)⟩
    · rw [if_neg hge]
      exact ⟨hwf, by omega, List.Sublist.refl _⟩

theorem evictWhile_of_lt {cap : Nat} {c : Cache K V} (h : c.data.length < cap) :
    ∀ fuel, evictWhile cap fuel c = c
  | 0 => rfl
  | fuel + 1 => by
    rw [evictWhile, if_neg (by omega)]

theorem wf_overwrite {c : Cache K V} {key : K} {e : CacheEntry V}
    (h : WF c) (hkey : key ∈ c.data.map Prod.fst) :
    WF { c with data := mapSet c.data key e } := by
  obtain ⟨hd, ho, hiff⟩ := h
  refine ⟨?_, ho, ?_⟩
  · show ((mapSet c.data key e).map Prod.fst).Nodup
    rwa [mapSet_keys_present hkey]
  · intro a
    show a ∈ c.accessOrder ↔ a ∈ (mapSet c.data key e).map Prod.fst
    rw [mapSet_keys_present hkey]
    exact hiff a

theorem wf_insertNew {cfg : Config} {c : Cache K V} {key : K} {e : CacheEntry V}
    (hcap : 1 ≤ cfg.maxSize) (h : WF c) (hkey : key ∉ c.data.map Prod.fst) :
    WF (insertNew cfg key e c) := by
  have hev := evictWhile_spec cfg.maxSize hcap c.accessOrder.length c h
    (by rw [h.order_length]; omega)
  obtain ⟨⟨hd2, ho2, hiff2⟩, _, hsub⟩ := hev
  have hkey2 : key ∉ (evictWhile cfg.maxSize c.accessOrder.length c).data.map Prod.fst :=
    fun hmem => hkey (hsub.mem hmem)
  have hkey2o : key ∉ (evictWhile cfg.maxSize c.accessOrder.length c).accessOrder :=
    fun hmem => hkey2 ((hiff2 key).mp hmem)
  unfold insertNew
  rw [mapSet_absent hkey2]
  refine ⟨?_, ?_, ?_⟩
  · rw [List.map_append]
    refine List.Nodup.append hd2 (by simp) ?_
    intro a ha ha'
    simp only [List.map_cons, List.map_nil, List.mem_singleton] at ha'
    subst ha'
    exact hkey2 ha
  · refine List.Nodup.append ho2 (List.nodup_singleton key) ?_
    intro a ha ha'
    rw [List.mem_singleton] at ha'
    subst ha'
    exact hkey2o ha
  · intro a
    simp only [List.mem_append, List.map_append, List.map_cons, List.map_nil,
      List.mem_singleton, hiff2 a]

theorem wf_set {cfg : Config} {c : Cache K V} {key : K} {value : V} {ttl : Option Nat}
    {now : Nat} (hcap : 1 ≤ cfg.maxSize) (h : WF c) :
    WF (set cfg key value ttl now c) := by
  unfold set
  apply wf_persist
  by_cases hk : (mapGet c.data key).isSome = true
  · rw [if_pos hk]
    have hkey : key ∈ c.data.map Prod.fst := mapGet_isSome_iff.mp hk
    refine wf_touch (wf_overwrite h hkey) ?_
    show key ∈ (mapSet c.data key (newEntry cfg ttl now value)).map Prod.fst
    rwa [mapSet_keys_present hkey]
  · rw [if_neg hk]
    exact wf_insertNew hcap h (fun hmem => hk (mapGet_isSome_iff.mpr hmem))

theorem wf_get {cfg : Config} {c : Cache K V} {key : K} {now : Nat} (h : WF c) :
    WF (get cfg key now c).2 := by
  unfold get
  split
  · exact h
  · next e hget =>
    split
    · exact wf_persist (wf_removeBoth key h)
    · refine wf_persist (wf_touch h ?_)
      rw [← mapGet_isSome_iff, hget]
      rfl

theorem wf_has {cfg : Config} {c : Cache K V} {key : K} {now : Nat} (h : WF c) :
    WF (has cfg key now c).2 := by
  unfold has
  split
  · exact h
  · next e hget =>
    split
    · exact wf_delete h
    · exact h

theorem wf_clear {c : Cache K V} : WF (clear c) :=
  ⟨by simp [clear], by simp [clear], by simp [clear]⟩

theorem wf_applyOp {cfg : Config} {c : Cache K V} (hcap : 1 ≤ cfg.maxSize)
    (h : WF c) (op : Op K V) : WF (applyOp cfg c op) := by
  cases op with
  | get key now =>
    show WF (get cfg key now c).2
    exact wf_get h
  | set key value ttl now =>
    show WF (set cfg key value ttl now c)
    exact wf_set hcap h
  | del key =>
    show WF (delete cfg key c)
    exact wf_delete h
  | has key now =>
    show WF (has cfg key now c).2
    exact wf_has h
  | clear =>
    show WF (clear c)
    exact wf_clear

theorem wf_runOps {cfg : Config} (hcap : 1 ≤ cfg.maxSize) :
    ∀ (ops : List (Op K V)) (c : Cache K V), WF c → WF (runOps cfg c ops)
  | [], _, h => h
  | op :: ops, c, h =>
    wf_runOps hcap ops (applyOp cfg c op) (wf_applyOp hcap h op)

theorem touch_data_keys {c : Cache K V} {key : K} {now : Nat} :
    (touch key now c).data.map Prod.fst = c.data.map Prod.fst := by
  unfold touch
  split
  · next e hget =>
    show (mapSet c.data key { e with lastAccessed := now }).map Prod.fst = _
    refine mapSet_keys_present ?_
    rw [← mapGet_isSome_iff, hget]
    rfl
  · rfl

theorem touch_data_length {c : Cache K V} {key : K} {now : Nat} :
    (touch key now c).data.length = c.data.length := by
  have h1 : ((touch key now c).data.map Prod.fst).length
      = (c.data.map Prod.fst).length := by
    rw [touch_data_keys]
  simpa using h1

theorem touch_accessOrder {c : Cache K V} {key : K} {now : Nat} :
    (touch key now c).accessOrder = removeFirst c.accessOrder key ++ [key] := by
  unfold touch
  split
  · rfl
  · rfl

theorem get_snd_cases (cfg : Config) (key : K) (now : Nat) (c : Cache K V) :
    (get cfg key now c).2 = c ∨
    (get cfg key now c).2 = persist cfg
      { c with data := mapDelete c.data key,
               accessOrder := removeFirst c.accessOrder key } ∨
    (get cfg key now c).2 = persist cfg (touch key now c) := by
  unfold get
  split
  · exact Or.inl rfl
  · split
    · exact Or.inr (Or.inl rfl)
    · exact Or.inr (Or.inr rfl)

theorem has_snd_cases (cfg : Config) (key : K) (now : Nat) (c : Cache K V) :
    (has cfg key now c).2 = c ∨ (has cfg key now c).2 = delete cfg key c := by
  unfold has
  split
  · exact Or.inl rfl
  · split
    · exact Or.inr rfl
    · exact Or.inl rfl

theorem size_applyOp_le {cfg : Config} {c : Cache K V} (hcap : 1 ≤ cfg.maxSize)
    (hwf : WF c) (hle : c.data.length ≤ cfg.maxSize) (op : Op K V) :
    (applyOp cfg c op).data.length ≤ cfg.maxSize := by
  cases op with
  | get key now =>
    show (get cfg key now c).2.data.length ≤ _
    rcases get_snd_cases cfg key now c with h | h | h
    · rw [h]
      exact hle
    · rw [h, persist_data]
      exact le_trans (mapDelete_length_le _ _) hle
    · rw [h, persist_data, touch_data_length]
      exact hle
  | set key value ttl now =>
    show (set cfg key value ttl now c).data.length ≤ _
    unfold set
    rw [persist_data]
    by_cases hk : (mapGet c.data key).isSome = true
    · rw [if_pos hk]
      rw [touch_data_length]
      show (mapSet c.data key (newEntry cfg ttl now value)).length ≤ _
      rw [mapSet_length_present (mapGet_isSome_iff.mp hk)]
      exact hle
    · rw [if_neg hk]
      have hkey : key ∉ c.data.map Prod.fst := fun hm => hk (mapGet_isSome_iff.mpr hm)
      have hev := evictWhile_spec cfg.maxSize hcap c.accessOrder.length c hwf
        (by rw [hwf.order_length]; omega)
      have hkey2 : key ∉ (evictWhile cfg.maxSize c.accessOrder.length c).data.map Prod.fst :=
        fun hm => hkey (hev.2.2.mem hm)
      have hlen2 := hev.2.1
      show (mapSet (evictWhile cfg.maxSize c.accessOrder.length c).data key
        (newEntry cfg ttl now value)).length ≤ cfg.maxSize
      rw [mapSet_absent hkey2]
      simp only [List.length_append, List.length_cons, List.length_nil]
      omega
  | del key =>
    show (delete cfg key c).data.length ≤ _
    unfold delete
    rw [persist_data]
    exact le_trans (mapDelete_length_le _ _) hle
  | has key now =>
    show (has cfg key now c).2.data.length ≤ _
    rcases has_snd_cases cfg key now c with h | h
    · rw [h]
      exact hle
    · rw [h]
      unfold delete
      rw [persist_data]
      exact le_trans (mapDelete_length_le _ _) hle
  | clear =>
    show (clear c).data.length ≤ _
    simp [clear]

theorem size_runOps_le {cfg : Config} (hcap : 1 ≤ cfg.maxSize) :
    ∀ (ops : List (Op K V)) (c : Cache K V), WF c → c.data.length ≤ cfg.maxSize →
      (runOps cfg c ops).data.length ≤ cfg.maxSize
  | [], _, _, hle => hle
  | op :: ops, c, hwf, hle =>
    size_runOps_le hcap ops (applyOp cfg c op) (wf_applyOp hcap hwf op)
      (size_applyOp_le hcap hwf hle op)

theorem wf_hydrate {loaded : List (K × CacheEntry V)} {now : Nat}
    (hnd : (loaded.map Prod.fst).Nodup) : WF (hydrate loaded now : Cache K V) := by
  unfold hydrate
  have hsub : List.Sublist (loaded.filter (fun p => entryAlive now p.2)) loaded :=
    List.filter_sublist loaded
  have hknd : ((loaded.filter (fun p => entryAlive now p.2)).map Prod.fst).Nodup :=
    (hsub.map Prod.fst).nodup hnd
  have hperm := List.perm_insertionSort
    (leBy (lastAccessedOf (loaded.filter (fun p => entryAlive now p.2))))
    ((loaded.filter (fun p => entryAlive now p.2)).map Prod.fst)
  exact ⟨hknd, hperm.symm.nodup hknd, fun k => hperm.mem_iff⟩

theorem keys_filter_sublist (p : K × CacheEntry V → Bool) (l : List (K × CacheEntry V)) :
    List.Sublist ((l.filter p).map Prod.fst) (l.map Prod.fst) :=
  (List.filter_sublist l).map Prod.fst

theorem entryAlive_iff {e : CacheEntry V} {now : Nat} :
    entryAlive now e = true ↔
      (e.expiresAt = none ∨ ∃ t, e.expiresAt = some t ∧ now < t) := by
  unfold entryAlive
  cases h : e.expiresAt with
  | none => simp
  | some t => simp [h, Nat.lt_iff_add_one_le]

theorem mapGet_filter {p : CacheEntry V → Bool} (k : K) (e : CacheEntry V) :
    ∀ {l : List (K × CacheEntry V)}, (l.map Prod.fst).Nodup →
      (mapGet (l.filter (fun q => p q.2)) k = some e ↔
        (mapGet l k = some e ∧ p e = true))
  | [], _ => by simp [mapGet]
  | (k0, e0) :: rest, hnd => by
    simp only [List.map_cons, List.nodup_cons] at hnd
    by_cases hk : k0 = k
    · subst hk
      by_cases hp : p e0 = true
      · rw [List.filter_cons_of_pos (by simpa using hp)]
        simp only [mapGet, if_pos rfl]
        constructor
        · intro h
          have he : e0 = e := by injection h
          subst he
          exact ⟨h, hp⟩
        · exact fun h => h.1
      · rw [List.filter_cons_of_neg (by simpa using hp)]
        have hnone : mapGet (rest.filter (fun q => p q.2)) k0 = none := by
          rw [mapGet_eq_none_iff]
          intro hmem
          exact hnd.1 ((keys_filter_sublist _ rest).mem hmem)
        rw [hnone]
        simp only [mapGet, if_pos rfl]
        constructor
        · intro h
          exact absurd h (by simp)
        · rintro ⟨h, hpe⟩
          have he : e0 = e := by injection h
          subst he
          exact absurd hpe (by simpa using hp)
    · have hrec := mapGet_filter (p := p) k e hnd.2
      by_cases hp : p e0 = true
      · rw [List.filter_cons_of_pos (by simpa using hp)]
        simp only [mapGet, if_neg hk]
        exact hrec
      · rw [List.filter_cons_of_neg (by simpa using hp)]
        simp only [mapGet, if_neg hk]
        exact hrec

theorem mapSet_mapSet {l : List (K × CacheEntry V)} {k : K} {e e' : CacheEntry V} :
    mapSet (mapSet l k e) k e' = mapSet l k e' := by
  induction l with
  | nil => simp [mapSet]
  | cons p rest ih =>
    obtain ⟨k0, e0⟩ := p
    by_cases h : k0 = k <;> simp [mapSet, h, ih]

theorem set_overwrite {cfg : Config} {c : Cache K V} {key : K} {value : V}
    {ttl : Option Nat} {now : Nat} (hget : (mapGet c.data key).isSome = true) :
    set cfg key value ttl now c = persist cfg
      { c with data := mapSet c.data key (newEntry cfg ttl now value),
               accessOrder := removeFirst c.accessOrder key ++ [key] } := by
  unfold set
  rw [if_pos hget]
  congr 1
  unfold touch
  rw [show mapGet (mapSet c.data key (newEntry cfg ttl now value)) key
      = some (newEntry cfg ttl now value) from mapGet_mapSet_self]
  show ({ c with
      data := mapSet (mapSet c.data key (newEntry cfg ttl now value)) key
        { newEntry cfg ttl now value with lastAccessed := now },
      accessOrder := removeFirst c.accessOrder key ++ [key] } : Cache K V) = _
  rw [mapSet_mapSet]
  rfl

theorem get_eq_of_absent {cfg : Config} {c : Cache K V} {key : K} {now : Nat}
    (hget : mapGet c.data key = none) : get cfg key now c = (none, c) := by
  unfold get
  split
  · rfl
  · next e' hsome =>
    rw [hget] at hsome
    exact Option.noConfusion hsome

theorem get_eq_of_expired {cfg : Config} {c : Cache K V} {key : K} {now : Nat}
    {e : CacheEntry V} (hget : mapGet c.data key = some e)
    (hE : isExpired now e = true) :
    get cfg key now c = (none, persist cfg
      { c with data := mapDelete c.data key,
               accessOrder := removeFirst c.accessOrder key }) := by
  unfold get
  split
  · next hnone =>
    rw [hget] at hnone
    exact Option.noConfusion hnone
  · next e' hsome =>
    rw [hget] at hsome
    have he : e = e' := by injection hsome
    subst he
    rw [if_pos hE]

theorem get_eq_of_live {cfg : Config} {c : Cache K V} {key : K} {now : Nat}
    {e : CacheEntry V} (hget : mapGet c.data key = some e)
    (hE : isExpired now e = false) :
    get cfg key now c = (some e.value, persist cfg (touch key now c)) := by
  unfold get
  split
  · next hnone =>
    rw [hget] at hnone
    exact Option.noConfusion hnone
  · next e' hsome =>
    rw [hget] at hsome
    have he : e = e' := by injection hsome
    subst he
    rw [if_neg (by simp [hE])]

theorem mapGet_cons_self {k : K} {e : CacheEntry V} {l : List (K × CacheEntry V)} :
    mapGet ((k, e) :: l) k = some e := by
  show (if k = k then some e else mapGet l k) = some e
  rw [if_pos rfl]

theorem mapGet_cons_ne {k k' : K} {e : CacheEntry V} {l : List (K × CacheEntry V)}
    (h : k ≠ k') : mapGet ((k, e) :: l) k' = mapGet l k' := by
  show (if k = k' then some e else mapGet l k') = mapGet l k'
  rw [if_neg h]

theorem mapSet_cons_self {k : K} {e e' : CacheEntry V} {l : List (K × CacheEntry V)} :
    mapSet ((k, e) :: l) k e' = (k, e') :: l := by
  show (if k = k then (k, e') :: l else (k, e) :: mapSet l k e') = (k, e') :: l
  rw [if_pos rfl]

theorem mapDelete_cons_self {k : K} {e : CacheEntry V} {l : List (K × CacheEntry V)} :
    mapDelete ((k, e) :: l) k = l := by
  show (if k = k then l else (k, e) :: mapDelete l k) = l
  rw [if_pos rfl]

theorem mapDelete_cons_ne {k key : K} {e : CacheEntry V} {l : List (K × CacheEntry V)}
    (h : k ≠ key) : mapDelete ((k, e) :: l) key = (k, e) :: mapDelete l key := by
  show (if k = key then l else (k, e) :: mapDelete l key) = (k, e) :: mapDelete l key
  rw [if_neg h]

theorem removeFirst_cons_self {k : K} {l : List K} : removeFirst (k :: l) k = l := by
  show (if k = k then l else k :: removeFirst l k) = l
  rw [if_pos rfl]

theorem isExpired_of_none {e : CacheEntry V} {now : Nat} (h : e.expiresAt = none) :
    isExpired now e = false := by
  unfold isExpired
  rw [h]

theorem newEntry_noTTL {cfg : Config} (h : cfg.defaultTTL = none) (now : Nat) (v : V) :
    newEntry cfg none now v = ⟨v, none, now⟩ := by
  unfold newEntry resolveTTL
  rw [h]
  rfl

theorem keys_mapEntries (g : K → CacheEntry V) (ks : List K) :
    ((ks.map (fun k => (k, g k))).map Prod.fst) = ks := by
  induction ks with
  | nil => rfl
  | cons k rest ih => simpa using ih

theorem touch_eq_of_some {c : Cache K V} {key : K} {now : Nat} {e : CacheEntry V}
    (hget : mapGet c.data key = some e) :
    touch key now c =
      { c with accessOrder := removeFirst c.accessOrder key ++ [key],
               data := mapSet c.data key { e with lastAccessed := now } } := by
  unfold touch
  split
  · next e' hsome =>
    rw [hget] at hsome
    have he : e = e' := by injection hsome
    subst he
    rfl
  · next hnone =>
    rw [hget] at hnone
    exact Option.noConfusion hnone

theorem set_fresh (cfg : Config) (c : Cache K V) (key : K) (value : V)
    (ttl : Option Nat) (now : Nat)
    (hkey : key ∉ c.data.map Prod.fst) (hlt : c.data.length < cfg.maxSize) :
    set cfg key value ttl now c = persist cfg
      { c with data := c.data ++ [(key, newEntry cfg ttl now value)],
               accessOrder := c.accessOrder ++ [key] } := by
  have hnone : mapGet c.data key = none := mapGet_eq_none_iff.mpr hkey
  unfold set
  rw [if_neg (by rw [hnone]; simp)]
  congr 1
  unfold insertNew
  rw [evictWhile_of_lt hlt]
  rw [mapSet_absent hkey]

theorem set_evict (cfg : Config) (c : Cache K V) (key : K) (value : V)
    (ttl : Option Nat) (now : Nat) (lru : K) (restO : List K)
    (hkey : mapGet c.data key = none)
    (horder : c.accessOrder = lru :: restO)
    (hlen : c.data.length = cfg.maxSize)
    (hlru : lru ∈ c.data.map Prod.fst)
    (hkey2 : key ∉ (mapDelete c.data lru).map Prod.fst) :
    set cfg key value ttl now c = persist cfg
      { c with data := mapDelete c.data lru ++ [(key, newEntry cfg ttl now value)],
               accessOrder := restO ++ [key] } := by
  unfold set
  rw [if_neg (by rw [hkey]; simp)]
  congr 1
  unfold insertNew
  have hev1 : evictLRU c = { c with accessOrder := restO, data := mapDelete c.data lru } :=
    evictLRU_eq_cons horder
  have hdel := mapDelete_length_mem hlru
  have hlt : (evictLRU c).data.length < cfg.maxSize := by
    rw [hev1]
    show (mapDelete c.data lru).length < cfg.maxSize
    omega
  have hfuel : c.accessOrder.length = restO.length + 1 := by
    rw [horder]
    rfl
  have hev : evictWhile cfg.maxSize c.accessOrder.length c
      = { c with accessOrder := restO, data := mapDelete c.data lru } := by
    rw [hfuel, evictWhile, if_pos (by omega), evictWhile_of_lt hlt, hev1]
  rw [hev]
  dsimp only
  rw [mapSet_absent hkey2]

theorem setSeq_cons {cfg : Config} {f : K → V} {τ : K → Nat} {k : K} {ks : List K}
    {c : Cache K V} :
    setSeq cfg f τ (k :: ks) c = setSeq cfg f τ ks (set cfg k (f k) none (τ k) c) :=
  rfl

theorem setSeq_append {cfg : Config} {f : K → V} {τ : K → Nat} {xs ys : List K}
    {c : Cache K V} :
    setSeq cfg f τ (xs ++ ys) c = setSeq cfg f τ ys (setSeq cfg f τ xs c) := by
  unfold setSeq
  rw [List.foldl_append]

theorem setSeq_fresh (cfg : Config) (f : K → V) (τ : K → Nat) :
    ∀ (ks : List K) (c : Cache K V),
      (c.data.map Prod.fst ++ ks).Nodup →
      c.data.length + ks.length ≤ cfg.maxSize →
      (setSeq cfg f τ ks c).data
          = c.data ++ ks.map (fun k => (k, newEntry cfg none (τ k) (f k))) ∧
        (setSeq cfg f τ ks c).accessOrder = c.accessOrder ++ ks
  | [], c, _, _ => ⟨by simp [setSeq], by simp [setSeq]⟩
  | k :: ks, c, hnd, hlen => by
    have hkey : k ∉ c.data.map Prod.fst := by
      intro hmem
      exact (List.nodup_append.mp hnd).2.2 hmem (List.mem_cons_self k ks)
    have hlt : c.data.length < cfg.maxSize := by
      simp only [List.length_cons] at hlen
      omega
    have hstep := set_fresh cfg c k (f k) none (τ k) hkey hlt
    have hdata1 : (set cfg k (f k) none (τ k) c).data
        = c.data ++ [(k, newEntry cfg none (τ k) (f k))] := by
      rw [hstep, persist_data]
    have horder1 : (set cfg k (f k) none (τ k) c).accessOrder
        = c.accessOrder ++ [k] := by
      rw [hstep, persist_accessOrder]
    have hnd1 : ((set cfg k (f k) none (τ k) c).data.map Prod.fst ++ ks).Nodup := by
      rw [hdata1]
      simp only [List.map_append, List.map_cons, List.map_nil]
      rw [List.append_assoc]
      simpa using hnd
    have hlen1 : (set cfg k (f k) none (τ k) c).data.length + ks.length
        ≤ cfg.maxSize := by
      rw [hdata1]
      simp only [List.length_append, List.length_cons, List.length_nil]
      simp only [List.length_cons] at hlen
      omega
    have ih := setSeq_fresh cfg f τ ks (set cfg k (f k) none (τ k) c) hnd1 hlen1
    refine ⟨?_, ?_⟩
    · rw [setSeq_cons, ih.1, hdata1, List.append_assoc]
      rfl
    · rw [setSeq_cons, ih.2, horder1, List.append_assoc]
      rfl

theorem persist_stored_eq {cfg : Config} (hpc : cfg.persistOnChange = true)
    (c : Cache K V) : (persist cfg c).stored = (persist cfg c).data := by
  rw [persist_of_flag hpc]

theorem stored_applyOp {cfg : Config} (hpc : cfg.persistOnChange = true)
    {c : Cache K V} (hsd : c.stored = c.data) (op : Op K V) :
    (applyOp cfg c op).stored = (applyOp cfg c op).data := by
  cases op with
  | get key now =>
    show (get cfg key now c).2.stored = (get cfg key now c).2.data
    rcases get_snd_cases cfg key now c with h | h | h
    · rw [h]
      exact hsd
    · rw [h]
      exact persist_stored_eq hpc _
    · rw [h]
      exact persist_stored_eq hpc _
  | set key value ttl now =>
    show (set cfg key value ttl now c).stored = (set cfg key value ttl now c).data
    unfold set
    exact persist_stored_eq hpc _
  | del key =>
    show (delete cfg key c).stored = (delete cfg key c).data
    unfold delete
    exact persist_stored_eq hpc _
  | has key now =>
    show (has cfg key now c).2.stored = (has cfg key now c).2.data
    rcases has_snd_cases cfg key now c with h | h
    · rw [h]
      exact hsd
    · rw [h]
      unfold delete
      exact persist_stored_eq hpc _
  | clear =>
    show (clear c).stored = (clear c).data
    rfl

theorem stored_runOps {cfg : Config} (hpc : cfg.persistOnChange = true) :
    ∀ (ops : List (Op K V)) (c : Cache K V), c.stored = c.data →
      (runOps cfg c ops).stored = (runOps cfg c ops).data
  | [], _, hsd => hsd
  | op :: ops, c, hsd =>
    stored_runOps hpc ops (applyOp cfg c op) (stored_applyOp hpc hsd op)

end Cache

/-! ### The claims -/

/-- C1 counterexample: a cache with capacity 1 whose storage adapter holds
a snapshot of two unexpired entries reports `size() = 2 > 1` right after
its lazy hydration completes, so the capacity bound does not cover the
hydration operation. -/
theorem claim_C1_cex :
    ¬ (Cache.size (Cache.hydrate
        [(0, ⟨0, none, 0⟩), (1, ⟨0, none, 0⟩)] 0 : Cache Nat Nat) ≤ 1) := by
  decide

/-- C1 (amended): for every cache constructed with a positive capacity,
if the lazy hydration itself yields at most `capacity` entries (as it
does whenever the persisted snapshot fits in the capacity — in particular
for an empty adapter), then after every subsequent completed operation
(any sequence of `get`/`set`/`delete`/`has`/`clear`, in particular all
sequences of `set` calls on distinct keys) `size() ≤ capacity`. -/
theorem claim_C1 {K V : Type} [DecidableEq K] (cfg : Config)
    (loaded : List (K × CacheEntry V)) (now : Nat) (ops : List (Cache.Op K V))
    (hcap : 1 ≤ cfg.maxSize)
    (hnd : (loaded.map Prod.fst).Nodup)
    (hinit : Cache.size (Cache.hydrate loaded now) ≤ cfg.maxSize) :
    Cache.size (Cache.runOps cfg (Cache.hydrate loaded now) ops) ≤ cfg.maxSize :=
  Cache.size_runOps_le hcap ops _ (Cache.wf_hydrate hnd) hinit

/-- C1 witness: capacity 2, empty adapter, three sets of distinct keys. -/
theorem claim_C1_witness :
    Cache.size (Cache.runOps ⟨2, none, true⟩
      (Cache.hydrate ([] : List (Nat × CacheEntry Nat)) 0)
      [.set 1 10 none 0, .set 2 20 none 0, .set 3 30 none 1]) ≤ 2 :=
  claim_C1 ⟨2, none, true⟩ [] 0
    [.set 1 10 none 0, .set 2 20 none 0, .set 3 30 none 1]
    (by decide) (by decide) (by decide)

/-- C2: after hydration from any valid snapshot and after every sequence
of completed operations, every key of the entry map occurs exactly once in
the recency order, and every key of the recency order is a key of the
entry map. -/
theorem claim_C2 {K V : Type} [DecidableEq K] (cfg : Config)
    (loaded : List (K × CacheEntry V)) (now : Nat) (ops : List (Cache.Op K V))
    (hcap : 1 ≤ cfg.maxSize)
    (hnd : (loaded.map Prod.fst).Nodup) :
    (∀ k, k ∈ (Cache.runOps cfg (Cache.hydrate loaded now) ops).data.map Prod.fst →
      (Cache.runOps cfg (Cache.hydrate loaded now) ops).accessOrder.count k = 1) ∧
    (∀ k, k ∈ (Cache.runOps cfg (Cache.hydrate loaded now) ops).accessOrder →
      k ∈ (Cache.runOps cfg (Cache.hydrate loaded now) ops).data.map Prod.fst) := by
  obtain ⟨hd, ho, hiff⟩ := Cache.wf_runOps hcap ops _ (Cache.wf_hydrate hnd)
  exact ⟨fun k hk => List.count_eq_one_of_mem ho ((hiff k).mpr hk),
         fun k hk => (hiff k).mp hk⟩

/-- C2 witness: a snapshot entry plus a set, a get and a delete; the key
that remains occurs exactly once in the recency order. -/
theorem claim_C2_witness :
    (Cache.runOps ⟨2, none, true⟩
      (Cache.hydrate ([(5, ⟨1, none, 3⟩)] : List (Nat × CacheEntry Nat)) 0)
      [.set 1 10 none 4, .get 5 5, .del 1]).accessOrder.count 5 = 1 :=
  (claim_C2 ⟨2, none, true⟩ [(5, ⟨1, none, 3⟩)] 0 [.set 1 10 none 4, .get 5 5, .del 1]
    (by decide) (by decide)).1 5 (by decide)

/-- C4 counterexample: a snapshot entry whose expiry instant equals the
load instant is not "already in the past" at load time, yet `init`'s
filter (`expiresAt > now`) drops it: the cache is empty right after
loading that snapshot. -/
theorem claim_C4_cex :
    Cache.specPresentAfterLoad (⟨7, some 100, 0⟩ : CacheEntry Nat) 100 ∧
    mapGet (Cache.hydrate [((0 : Nat), ⟨7, some 100, 0⟩)] 100).data 0 = none := by
  constructor
  · exact Or.inr ⟨100, rfl, by omega⟩
  · decide

/-- C4 (amended): immediately after the cache loads a persisted snapshot,
an entry is present iff its `expiresAt` is null or strictly in the future
at load time (an entry expiring exactly at the load instant is dropped),
and the recency order is exactly the surviving keys, sorted ascending by
`lastAccessed`. -/
theorem claim_C4 {K V : Type} [DecidableEq K]
    (loaded : List (K × CacheEntry V)) (now : Nat)
    (hnd : (loaded.map Prod.fst).Nodup) :
    (∀ k e, mapGet (Cache.hydrate loaded now).data k = some e ↔
      (mapGet loaded k = some e ∧
        (e.expiresAt = none ∨ ∃ t, e.expiresAt = some t ∧ now < t))) ∧
    (Cache.hydrate loaded now).accessOrder.Perm
      ((Cache.hydrate loaded now).data.map Prod.fst) ∧
    (Cache.hydrate loaded now).accessOrder.Sorted
      (Cache.leBy (Cache.lastAccessedOf (Cache.hydrate loaded now).data)) := by
  refine ⟨fun k e => ?_, ?_, ?_⟩
  · show mapGet (loaded.filter (fun p => Cache.entryAlive now p.2)) k = some e ↔ _
    rw [Cache.mapGet_filter k e hnd, Cache.entryAlive_iff]
  · show List.Perm
      (List.insertionSort
        (Cache.leBy (Cache.lastAccessedOf (loaded.filter (fun p => Cache.entryAlive now p.2))))
        ((loaded.filter (fun p => Cache.entryAlive now p.2)).map Prod.fst))
      ((loaded.filter (fun p => Cache.entryAlive now p.2)).map Prod.fst)
    exact List.perm_insertionSort _ _
  · show List.Sorted
      (Cache.leBy (Cache.lastAccessedOf (loaded.filter (fun p => Cache.entryAlive now p.2))))
      (List.insertionSort
        (Cache.leBy (Cache.lastAccessedOf (loaded.filter (fun p => Cache.entryAlive now p.2))))
        ((loaded.filter (fun p => Cache.entryAlive now p.2)).map Prod.fst))
    exact List.sorted_insertionSort _ _

/-- C4 witness: a snapshot with one permanent entry and one entry already
expired at load time; the recency order is a permutation of the surviving
keys. -/
theorem claim_C4_witness :
    (Cache.hydrate ([(1, ⟨10, none, 7⟩), (2, ⟨20, some 3, 1⟩)] :
        List (Nat × CacheEntry Nat)) 5).accessOrder.Perm
      ((Cache.hydrate ([(1, ⟨10, none, 7⟩), (2, ⟨20, some 3, 1⟩)] :
        List (Nat × CacheEntry Nat)) 5).data.map Prod.fst) :=
  (claim_C4 [(1, ⟨10, none, 7⟩), (2, ⟨20, some 3, 1⟩)] 5 (by decide)).2.1

/-- C6: `get` on a present entry with a non-null expiry behaves by the
clock: strictly past the expiry instant it reports not-found, removes the
key from the entry map and the recency order, and (when configured to
persist on change) saves the updated map; strictly before the expiry
instant it returns the stored value. -/
theorem claim_C6 {K V : Type} [DecidableEq K] (cfg : Config) (key : K)
    (now t : Nat) (c : Cache K V) (e : CacheEntry V)
    (hwf : Cache.WF c)
    (hget : mapGet c.data key = some e)
    (hexp : e.expiresAt = some t) :
    (t < now →
      (Cache.get cfg key now c).1 = none ∧
      mapGet (Cache.get cfg key now c).2.data key = none ∧
      key ∉ (Cache.get cfg key now c).2.accessOrder ∧
      (cfg.persistOnChange = true →
        (Cache.get cfg key now c).2.stored = (Cache.get cfg key now c).2.data)) ∧
    (now < t → (Cache.get cfg key now c).1 = some e.value) := by
  obtain ⟨hd, ho, _⟩ := hwf
  refine ⟨fun hlt => ?_, fun hgt => ?_⟩
  · have hE : Cache.isExpired now e = true := by
      unfold Cache.isExpired
      rw [hexp]
      simpa using hlt
    rw [Cache.get_eq_of_expired hget hE]
    dsimp only
    refine ⟨rfl, ?_, ?_, fun hpc => ?_⟩
    · rw [Cache.persist_data]
      exact Cache.mapGet_mapDelete_self hd
    · rw [Cache.persist_accessOrder]
      intro hmem
      exact ((Cache.mem_removeFirst_iff ho).mp hmem).2 rfl
    · rw [Cache.persist_of_flag hpc]
  · have hE : Cache.isExpired now e = false := by
      unfold Cache.isExpired
      rw [hexp]
      simp
      omega
    rw [Cache.get_eq_of_live hget hE]

/-- C6 witness: an entry with expiry instant 100 read at 150 (not found)
and at 50 (value returned). -/
theorem claim_C6_witness :
    (Cache.get ⟨3, none, true⟩ 1 150
      (⟨[(1, ⟨9, some 100, 0⟩)], [1], [], 0⟩ : Cache Nat Nat)).1 = none ∧
    (Cache.get ⟨3, none, true⟩ 1 50
      (⟨[(1, ⟨9, some 100, 0⟩)], [1], [], 0⟩ : Cache Nat Nat)).1 = some 9 :=
  ⟨((claim_C6 ⟨3, none, true⟩ 1 150 100 ⟨[(1, ⟨9, some 100, 0⟩)], [1], [], 0⟩
      ⟨9, some 100, 0⟩ ⟨by decide, by decide, fun k => Iff.rfl⟩ (by decide) rfl).1
      (by decide)).1,
   (claim_C6 ⟨3, none, true⟩ 1 50 100 ⟨[(1, ⟨9, some 100, 0⟩)], [1], [], 0⟩
      ⟨9, some 100, 0⟩ ⟨by decide, by decide, fun k => Iff.rfl⟩ (by decide) rfl).2
      (by decide)⟩

/-- C7: `set` on an existing key — with no restriction on how full the
cache is — stores the new value, expiry and `lastAccessed` under that key,
moves the key to the most-recently-used end of the recency order, leaves
every other key's entry untouched, and changes no entry count (nothing is
evicted). -/
theorem claim_C7 {K V : Type} [DecidableEq K] (cfg : Config) (key : K)
    (value : V) (ttl : Option Nat) (now : Nat) (c : Cache K V)
    (hget : (mapGet c.data key).isSome = true) :
    mapGet (Cache.set cfg key value ttl now c).data key
      = some (Cache.newEntry cfg ttl now value) ∧
    (∀ k', k' ≠ key → mapGet (Cache.set cfg key value ttl now c).data k'
      = mapGet c.data k') ∧
    (Cache.set cfg key value ttl now c).accessOrder
      = removeFirst c.accessOrder key ++ [key] ∧
    (Cache.set cfg key value ttl now c).data.length = c.data.length := by
  rw [Cache.set_overwrite hget]
  refine ⟨?_, fun k' hk' => ?_, ?_, ?_⟩
  · rw [Cache.persist_data]
    exact Cache.mapGet_mapSet_self
  · rw [Cache.persist_data]
    exact Cache.mapGet_mapSet_ne hk'
  · rw [Cache.persist_accessOrder]
  · rw [Cache.persist_data]
    exact Cache.mapSet_length_present (Cache.mapGet_isSome_iff.mp hget)

/-- C7 witness: a capacity-1 cache at capacity; overwriting its sole key
evicts nothing and stores the new entry. -/
theorem claim_C7_witness :
    mapGet (Cache.set ⟨1, none, true⟩ 1 7 none 3
      (⟨[(1, ⟨5, none, 0⟩)], [1], [], 0⟩ : Cache Nat Nat)).data 1
      = some (Cache.newEntry ⟨1, none, true⟩ none 3 7) :=
  (claim_C7 ⟨1, none, true⟩ 1 7 none 3 ⟨[(1, ⟨5, none, 0⟩)], [1], [], 0⟩
    (by decide)).1

/-- C8: `delete` of an absent key completes normally and leaves both the
entry map and the recency order unchanged (idempotent no-op); every
operation of the embedding is a total function, so no input — missing
key, empty cache, or capacity one — produces a caller-visible error. -/
theorem claim_C8 {K V : Type} [DecidableEq K] (cfg : Config) (key : K)
    (c : Cache K V) (hwf : Cache.WF c)
    (habsent : mapGet c.data key = none) :
    (Cache.delete cfg key c).data = c.data ∧
    (Cache.delete cfg key c).accessOrder = c.accessOrder := by
  have hkeys : key ∉ c.data.map Prod.fst := Cache.mapGet_eq_none_iff.mp habsent
  have horder : key ∉ c.accessOrder := fun hmem => hkeys ((hwf.2.2 key).mp hmem)
  unfold Cache.delete
  constructor
  · rw [Cache.persist_data]
    exact Cache.mapDelete_absent hkeys
  · rw [Cache.persist_accessOrder]
    exact Cache.removeFirst_absent horder

/-- C8 witness: deleting a key from an empty capacity-1 cache. -/
theorem claim_C8_witness :
    (Cache.delete ⟨1, none, true⟩ 1 (Cache.emptyCache : Cache Nat Nat)).data
      = (Cache.emptyCache : Cache Nat Nat).data :=
  (claim_C8 ⟨1, none, true⟩ 1 Cache.emptyCache
    ⟨by decide, by decide, fun k => Iff.rfl⟩ rfl).1

/-- C10 (implicit): with persist-on-change enabled, every `delete` call —
including one whose key is absent, which changes no observable cache
state — issues exactly one adapter save of the full current entry map. -/
theorem claim_C10 {K V : Type} [DecidableEq K] (cfg : Config) (key : K)
    (c : Cache K V) (hpc : cfg.persistOnChange = true) :
    (Cache.delete cfg key c).saves = c.saves + 1 ∧
    (Cache.delete cfg key c).stored = (Cache.delete cfg key c).data ∧
    (mapGet c.data key = none →
      (Cache.delete cfg key c).stored = mapDelete c.data key) := by
  unfold Cache.delete
  rw [Cache.persist_of_flag hpc]
  exact ⟨rfl, rfl, fun _ => rfl⟩

/-- C10 witness: deleting an absent key from an empty cache still bumps
the save count. -/
theorem claim_C10_witness :
    (Cache.delete ⟨1, none, true⟩ 3 (Cache.emptyCache : Cache Nat Nat)).saves
      = (Cache.emptyCache : Cache Nat Nat).saves + 1 :=
  (claim_C10 ⟨1, none, true⟩ 3 Cache.emptyCache rfl).1

namespace InitModel

theorem sysInv_step {s s' : Sys} {ev : Event} (hinv : SysInv s)
    (hstep : step s ev = some s') : SysInv s' := by
  obtain ⟨h0, h1, hdone⟩ := hinv
  cases ev with
  | start i =>
    simp only [step] at hstep
    by_cases hti : s.tasks.get? i = some ⟨OpKind.awaited, TaskPhase.pending⟩
    · rw [if_pos hti] at hstep
      by_cases hph : s.phase = InitPhase.notStarted
      · rw [if_pos hph] at hstep
        injection hstep with hs
        subst hs
        refine ⟨fun h => InitPhase.noConfusion h, fun _ => by rw [h0 hph],
          fun hmem => ?_⟩
        rcases List.mem_or_eq_of_mem_set hmem with hmem' | heq
        · have hready := hdone hmem'
          rw [hph] at hready
          exact InitPhase.noConfusion hready
        · exact TaskPhase.noConfusion (congrArg Task.phase heq)
      · rw [if_neg hph] at hstep
        injection hstep with hs
        subst hs
        refine ⟨h0, h1, fun hmem => ?_⟩
        rcases List.mem_or_eq_of_mem_set hmem with hmem' | heq
        · exact hdone hmem'
        · exact TaskPhase.noConfusion (congrArg Task.phase heq)
    · rw [if_neg hti] at hstep
      exact Option.noConfusion hstep
  | finishSync i =>
    simp only [step] at hstep
    by_cases hti : s.tasks.get? i = some ⟨OpKind.sync, TaskPhase.pending⟩
    · rw [if_pos hti] at hstep
      injection hstep with hs
      subst hs
      refine ⟨h0, h1, fun hmem => ?_⟩
      rcases List.mem_or_eq_of_mem_set hmem with hmem' | heq
      · exact hdone hmem'
      · exact OpKind.noConfusion (congrArg Task.kind heq)
    · rw [if_neg hti] at hstep
      exact Option.noConfusion hstep
  | loadDone =>
    simp only [step] at hstep
    by_cases hph : s.phase = InitPhase.loading
    · rw [if_pos hph] at hstep
      injection hstep with hs
      subst hs
      refine ⟨fun h => InitPhase.noConfusion h, fun _ => ?_, fun _ => rfl⟩
      refine h1 ?_
      rw [hph]
      exact fun h => InitPhase.noConfusion h
    · rw [if_neg hph] at hstep
      exact Option.noConfusion hstep
  | finish i =>
    simp only [step] at hstep
    by_cases hc : s.phase = InitPhase.ready ∧
        s.tasks.get? i = some ⟨OpKind.awaited, TaskPhase.awaitingLoad⟩
    · rw [if_pos hc] at hstep
      injection hstep with hs
      subst hs
      refine ⟨fun h => ?_, h1, fun _ => hc.1⟩
      rw [hc.1] at h
      exact InitPhase.noConfusion h
    · rw [if_neg hc] at hstep
      exact Option.noConfusion hstep

theorem sysInv_run :
    ∀ (tr : List Event) (s s' : Sys), SysInv s → run s tr = some s' → SysInv s'
  | [], s, s', hinv, hrun => by
    unfold run at hrun
    injection hrun with h
    exact h ▸ hinv
  | ev :: evs, s, s', hinv, hrun => by
    unfold run at hrun
    split at hrun
    · next s1 hstep =>
      exact sysInv_run evs s1 s' (sysInv_step hinv hstep) hrun
    · exact Option.noConfusion hrun

theorem sysInv_fresh (kinds : List OpKind) : SysInv (freshSys kinds) := by
  refine ⟨fun _ => rfl, fun h => absurd rfl h, fun hmem => ?_⟩
  obtain ⟨k, _, heq⟩ := List.mem_map.mp hmem
  exact TaskPhase.noConfusion (congrArg Task.phase heq)

end InitModel

/-- C3 counterexample: a `size()`/`keys()` call never invokes or awaits
`init()` — in the scheduler model it completes in one valid step on a
fresh cache while the load phase is still `notStarted` and zero loads
were issued, and on the cache itself a fresh not-yet-hydrated instance
whose adapter snapshot holds an entry reports `size() = 0`.  So an
observable operation returns its result before any load completed,
refuting the claim as stated. -/
theorem claim_C3_cex :
    InitModel.run (InitModel.freshSys [InitModel.OpKind.sync])
        [InitModel.Event.finishSync 0]
      = some (InitModel.Sys.mk InitModel.InitPhase.notStarted
          [InitModel.Task.mk InitModel.OpKind.sync InitModel.TaskPhase.done] 0) ∧
    (InitModel.Sys.mk InitModel.InitPhase.notStarted
        [InitModel.Task.mk InitModel.OpKind.sync InitModel.TaskPhase.done] 0).loads
      = 0 ∧
    Cache.size (⟨[], [], [(0, ⟨5, none, 0⟩)], 0⟩ : Cache Nat Nat) = 0 := by
  decide

/-- C3 (amended): in the cooperative-scheduling model of `init()`, over
every valid scheduling of any number of concurrently issued operations on
one cache, the storage adapter's `load()` is invoked at most once in the
whole run — and exactly once by the time any of `get`/`set`/`delete`/
`has`/`clear` has completed — and every completed such operation resumed
only after that single in-flight load resolved; late arrivals join the
existing load rather than starting a new one.  `size()` and `keys()`,
being synchronous methods that never call `init()`, are exempt: they may
return before any load is issued (see the counterexample). -/
theorem claim_C3 (kinds : List InitModel.OpKind) (tr : List InitModel.Event)
    (s' : InitModel.Sys)
    (h : InitModel.run (InitModel.freshSys kinds) tr = some s') :
    s'.loads ≤ 1 ∧
    (InitModel.Task.mk InitModel.OpKind.awaited InitModel.TaskPhase.done
        ∈ s'.tasks →
      s'.phase = InitModel.InitPhase.ready ∧ s'.loads = 1) := by
  obtain ⟨h0, h1, hdone⟩ :=
    InitModel.sysInv_run tr _ s' (InitModel.sysInv_fresh kinds) h
  constructor
  · by_cases hph : s'.phase = InitModel.InitPhase.notStarted
    · rw [h0 hph]
      omega
    · rw [h1 hph]
  · intro hmem
    have hph := hdone hmem
    refine ⟨hph, h1 ?_⟩
    rw [hph]
    exact fun hcontra => InitModel.InitPhase.noConfusion hcontra

/-- C3 witness: a `size()` call returns immediately, two awaited
operations race to be first and both finish after the single load
resolves; exactly one load was issued. -/
theorem claim_C3_witness :
    (InitModel.Sys.mk .ready [⟨.awaited, .done⟩, ⟨.awaited, .done⟩,
      ⟨.sync, .done⟩] 1).loads = 1 :=
  ((claim_C3 [.awaited, .awaited, .sync]
      [.finishSync 2, .start 0, .start 1, .loadDone, .finish 0, .finish 1]
      (InitModel.Sys.mk .ready [⟨.awaited, .done⟩, ⟨.awaited, .done⟩,
        ⟨.sync, .done⟩] 1) (by decide)).2 (by decide)).2

/-- C5: LRU eviction order.  Starting from a fresh cache of capacity
`N = rest.length + 2` with no default TTL: after `N + 1` sets of distinct
keys `k0, k1, rest…, d` with no intervening reads, the first-inserted key
`k0` is the one evicted (every other key still returns its value); if
instead `k0` is read via `get` between the `N`-th and `(N+1)`-th set, the
second-inserted key `k1` is the one evicted while `k0, rest…, d` all
return their values (the spec's concrete scenario is the instance
`N = 3`, keys a, b, c, d). -/
theorem claim_C5 {K V : Type} [DecidableEq K] (cfg : Config)
    (k0 k1 d : K) (rest : List K) (f : K → V) (τ : K → Nat) (tg tq : Nat)
    (hnd : (k0 :: k1 :: (rest ++ [d])).Nodup)
    (hcap : cfg.maxSize = rest.length + 2)
    (httl : cfg.defaultTTL = none) :
    ((Cache.get cfg k0 tq
        (Cache.setSeq cfg f τ ((k0 :: k1 :: rest) ++ [d]) Cache.emptyCache)).1
        = none ∧
     (∀ k, k ∈ k1 :: rest → (Cache.get cfg k tq
        (Cache.setSeq cfg f τ ((k0 :: k1 :: rest) ++ [d]) Cache.emptyCache)).1
        = some (f k)) ∧
     (Cache.get cfg d tq
        (Cache.setSeq cfg f τ ((k0 :: k1 :: rest) ++ [d]) Cache.emptyCache)).1
        = some (f d)) ∧
    ((Cache.get cfg k0 tq (Cache.set cfg d (f d) none (τ d)
        (Cache.get cfg k0 tg
          (Cache.setSeq cfg f τ (k0 :: k1 :: rest) Cache.emptyCache)).2)).1
        = some (f k0) ∧
     (Cache.get cfg k1 tq (Cache.set cfg d (f d) none (τ d)
        (Cache.get cfg k0 tg
          (Cache.setSeq cfg f τ (k0 :: k1 :: rest) Cache.emptyCache)).2)).1
        = none ∧
     (∀ k, k ∈ rest → (Cache.get cfg k tq (Cache.set cfg d (f d) none (τ d)
        (Cache.get cfg k0 tg
          (Cache.setSeq cfg f τ (k0 :: k1 :: rest) Cache.emptyCache)).2)).1
        = some (f k)) ∧
     (Cache.get cfg d tq (Cache.set cfg d (f d) none (τ d)
        (Cache.get cfg k0 tg
          (Cache.setSeq cfg f τ (k0 :: k1 :: rest) Cache.emptyCache)).2)).1
        = some (f d)) := by
  have hnd' := hnd
  simp only [List.nodup_cons, List.mem_cons, List.mem_append, List.mem_singleton,
    not_or] at hnd'
  obtain ⟨⟨hk01, hk0r, hk0d0⟩, ⟨hk1r, hk1d0⟩, hrd⟩ := hnd'
  have hk0d : ¬ k0 = d := hk0d0.1
  have hk1d : ¬ k1 = d := hk1d0.1
  have hrdsplit := List.nodup_append.mp hrd
  have hrnd : rest.Nodup := hrdsplit.1
  have hdr : d ∉ rest := fun hm => hrdsplit.2.2 hm (by simp)
  have hksnd : (k0 :: k1 :: rest).Nodup := by
    simp only [List.nodup_cons, List.mem_cons, not_or]
    exact ⟨⟨hk01, hk0r⟩, hk1r, hrnd⟩
  set c1 := Cache.setSeq cfg f τ (k0 :: k1 :: rest) Cache.emptyCache with hc1def
  have hfill := Cache.setSeq_fresh cfg f τ (k0 :: k1 :: rest) Cache.emptyCache
    (by simpa [Cache.emptyCache] using hksnd)
    (by simp only [Cache.emptyCache, List.length_cons, List.length_nil, hcap]; omega)
  obtain ⟨hAdata, hAorder⟩ := hfill
  have hc1data : c1.data = (k0, Cache.newEntry cfg none (τ k0) (f k0))
      :: (k1, Cache.newEntry cfg none (τ k1) (f k1))
      :: rest.map (fun k => (k, Cache.newEntry cfg none (τ k) (f k))) := by
    rw [hc1def, hAdata]
    simp [Cache.emptyCache]
  have hc1order : c1.accessOrder = k0 :: k1 :: rest := by
    rw [hc1def, hAorder]
    simp [Cache.emptyCache]
  have hc1keys : c1.data.map Prod.fst = k0 :: k1 :: rest := by
    rw [hc1data]
    simp only [List.map_cons]
    rw [Cache.keys_mapEntries]
  have hlen1 : c1.data.length = cfg.maxSize := by
    have hkl : (c1.data.map Prod.fst).length = (k0 :: k1 :: rest).length := by
      rw [hc1keys]
    simp only [List.length_map, List.length_cons] at hkl
    rw [hkl, hcap]
  have hlive : ∀ (k : K) (t : Nat),
      Cache.isExpired t (Cache.newEntry cfg none (τ k) (f k)) = false :=
    fun k t => Cache.isExpired_of_none (by rw [Cache.newEntry_noTTL httl])
  constructor
  · -- part 1: N+1 sets, no reads
    have hsplit : Cache.setSeq cfg f τ ((k0 :: k1 :: rest) ++ [d]) Cache.emptyCache
        = Cache.set cfg d (f d) none (τ d) c1 := by
      rw [Cache.setSeq_append]
      rfl
    have hgetd : mapGet c1.data d = none := by
      rw [Cache.mapGet_eq_none_iff, hc1keys]
      simp only [List.mem_cons, not_or]
      exact ⟨fun h => hk0d h.symm, fun h => hk1d h.symm, hdr⟩
    have hdel0 : mapDelete c1.data k0
        = (k1, Cache.newEntry cfg none (τ k1) (f k1))
          :: rest.map (fun k => (k, Cache.newEntry cfg none (τ k) (f k))) := by
      rw [hc1data, Cache.mapDelete_cons_self]
    have hdel0keys : (mapDelete c1.data k0).map Prod.fst = k1 :: rest := by
      rw [hdel0]
      simp only [List.map_cons]
      rw [Cache.keys_mapEntries]
    have hsetd := Cache.set_evict cfg c1 d (f d) none (τ d) k0 (k1 :: rest)
      hgetd hc1order hlen1
      (by rw [hc1keys]; exact List.mem_cons_self _ _)
      (by rw [hdel0keys]
          simp only [List.mem_cons, not_or]
          exact ⟨fun h => hk1d h.symm, hdr⟩)
    have hAfin : (Cache.set cfg d (f d) none (τ d) c1).data
        = ((k1, Cache.newEntry cfg none (τ k1) (f k1))
            :: rest.map (fun k => (k, Cache.newEntry cfg none (τ k) (f k))))
          ++ [(d, Cache.newEntry cfg none (τ d) (f d))] := by
      rw [hsetd, Cache.persist_data]
      dsimp only
      rw [hdel0]
    refine ⟨?_, fun k hk => ?_, ?_⟩
    · rw [hsplit]
      have hm : mapGet (Cache.set cfg d (f d) none (τ d) c1).data k0 = none := by
        rw [hAfin, Cache.mapGet_eq_none_iff, List.map_append]
        simp only [List.map_cons, List.map_nil]
        rw [Cache.keys_mapEntries]
        simp only [List.mem_append, List.mem_cons, List.mem_singleton, not_or]
        exact ⟨⟨hk01, hk0r⟩, hk0d, by simp⟩
      rw [Cache.get_eq_of_absent hm]
    · rw [hsplit]
      have hm : mapGet (Cache.set cfg d (f d) none (τ d) c1).data k
          = some (Cache.newEntry cfg none (τ k) (f k)) := by
        rw [hAfin]
        refine Cache.mapGet_append_of_some ?_
        rcases List.mem_cons.mp hk with rfl | hk'
        · exact Cache.mapGet_cons_self
        · rw [Cache.mapGet_cons_ne (fun h => hk1r (by rw [h]; exact hk'))]
          exact Cache.mapGet_map_self hk'
      rw [Cache.get_eq_of_live hm (hlive k tq)]
      rfl
    · rw [hsplit]
      have hm : mapGet (Cache.set cfg d (f d) none (τ d) c1).data d
          = some (Cache.newEntry cfg none (τ d) (f d)) := by
        rw [hAfin]
        rw [Cache.mapGet_append_of_none ?_]
        · exact Cache.mapGet_cons_self
        · rw [Cache.mapGet_eq_none_iff]
          simp only [List.map_cons]
          rw [Cache.keys_mapEntries]
          simp only [List.mem_cons, not_or]
          exact ⟨fun h => hk1d h.symm, hdr⟩
      rw [Cache.get_eq_of_live hm (hlive d tq)]
      rfl
  · -- part 2: get(k0) between the N-th and (N+1)-th set
    have hg0 : mapGet c1.data k0
        = some (Cache.newEntry cfg none (τ k0) (f k0)) := by
      rw [hc1data]
      exact Cache.mapGet_cons_self
    have hget0 : Cache.get cfg k0 tg c1
        = (some (Cache.newEntry cfg none (τ k0) (f k0)).value,
           Cache.persist cfg (Cache.touch k0 tg c1)) :=
      Cache.get_eq_of_live hg0 (hlive k0 tg)
    have htouch : Cache.touch k0 tg c1
        = { c1 with
              accessOrder := removeFirst c1.accessOrder k0 ++ [k0],
              data := mapSet c1.data k0
                { Cache.newEntry cfg none (τ k0) (f k0) with lastAccessed := tg } } :=
      Cache.touch_eq_of_some hg0
    have hc2data : (Cache.get cfg k0 tg c1).2.data
        = (k0, { Cache.newEntry cfg none (τ k0) (f k0) with lastAccessed := tg })
          :: (k1, Cache.newEntry cfg none (τ k1) (f k1))
          :: rest.map (fun k => (k, Cache.newEntry cfg none (τ k) (f k))) := by
      rw [hget0]
      dsimp only
      rw [Cache.persist_data, htouch]
      dsimp only
      rw [hc1data, Cache.mapSet_cons_self]
    have hc2order : (Cache.get cfg k0 tg c1).2.accessOrder
        = k1 :: (rest ++ [k0]) := by
      rw [hget0]
      dsimp only
      rw [Cache.persist_accessOrder, htouch]
      dsimp only
      rw [hc1order, Cache.removeFirst_cons_self]
      rfl
    have hc2keys : (Cache.get cfg k0 tg c1).2.data.map Prod.fst
        = k0 :: k1 :: rest := by
      rw [hc2data]
      simp only [List.map_cons]
      rw [Cache.keys_mapEntries]
    have hlen2 : (Cache.get cfg k0 tg c1).2.data.length = cfg.maxSize := by
      have hkl : ((Cache.get cfg k0 tg c1).2.data.map Prod.fst).length
          = (k0 :: k1 :: rest).length := by
        rw [hc2keys]
      simp only [List.length_map, List.length_cons] at hkl
      rw [hkl, hcap]
    have hgetd2 : mapGet (Cache.get cfg k0 tg c1).2.data d = none := by
      rw [Cache.mapGet_eq_none_iff, hc2keys]
      simp only [List.mem_cons, not_or]
      exact ⟨fun h => hk0d h.symm, fun h => hk1d h.symm, hdr⟩
    have hdel1 : mapDelete (Cache.get cfg k0 tg c1).2.data k1
        = (k0, { Cache.newEntry cfg none (τ k0) (f k0) with lastAccessed := tg })
          :: rest.map (fun k => (k, Cache.newEntry cfg none (τ k) (f k))) := by
      rw [hc2data, Cache.mapDelete_cons_ne hk01, Cache.mapDelete_cons_self]
    have hdel1keys : (mapDelete (Cache.get cfg k0 tg c1).2.data k1).map Prod.fst
        = k0 :: rest := by
      rw [hdel1]
      simp only [List.map_cons]
      rw [Cache.keys_mapEntries]
    have hsetd2 := Cache.set_evict cfg (Cache.get cfg k0 tg c1).2 d (f d) none
      (τ d) k1 (rest ++ [k0]) hgetd2 hc2order hlen2
      (by rw [hc2keys]
          exact List.mem_cons_of_mem _ (List.mem_cons_self _ _))
      (by rw [hdel1keys]
          simp only [List.mem_cons, not_or]
          exact ⟨fun h => hk0d h.symm, hdr⟩)
    have hBfin : (Cache.set cfg d (f d) none (τ d) (Cache.get cfg k0 tg c1).2).data
        = ((k0, { Cache.newEntry cfg none (τ k0) (f k0) with lastAccessed := tg })
            :: rest.map (fun k => (k, Cache.newEntry cfg none (τ k) (f k))))
          ++ [(d, Cache.newEntry cfg none (τ d) (f d))] := by
      rw [hsetd2, Cache.persist_data]
      dsimp only
      rw [hdel1]
    refine ⟨?_, ?_, fun k hk => ?_, ?_⟩
    · have hm : mapGet
          (Cache.set cfg d (f d) none (τ d) (Cache.get cfg k0 tg c1).2).data k0
          = some { Cache.newEntry cfg none (τ k0) (f k0) with lastAccessed := tg } := by
        rw [hBfin]
        exact Cache.mapGet_append_of_some Cache.mapGet_cons_self
      have hlive0 : Cache.isExpired tq
          { Cache.newEntry cfg none (τ k0) (f k0) with lastAccessed := tg } = false :=
        Cache.isExpired_of_none (by rw [Cache.newEntry_noTTL httl])
      rw [Cache.get_eq_of_live hm hlive0]
      rfl
    · have hm : mapGet
          (Cache.set cfg d (f d) none (τ d) (Cache.get cfg k0 tg c1).2).data k1
          = none := by
        rw [hBfin, Cache.mapGet_eq_none_iff, List.map_append]
        simp only [List.map_cons, List.map_nil]
        rw [Cache.keys_mapEntries]
        simp only [List.mem_append, List.mem_cons, List.mem_singleton, not_or]
        exact ⟨⟨fun h => hk01 h.symm, hk1r⟩, hk1d, by simp⟩
      rw [Cache.get_eq_of_absent hm]
    · have hm : mapGet
          (Cache.set cfg d (f d) none (τ d) (Cache.get cfg k0 tg c1).2).data k
          = some (Cache.newEntry cfg none (τ k) (f k)) := by
        rw [hBfin]
        refine Cache.mapGet_append_of_some ?_
        rw [Cache.mapGet_cons_ne (fun h => hk0r (by rw [h]; exact hk))]
        exact Cache.mapGet_map_self hk
      rw [Cache.get_eq_of_live hm (hlive k tq)]
      rfl
    · have hm : mapGet
          (Cache.set cfg d (f d) none (τ d) (Cache.get cfg k0 tg c1).2).data d
          = some (Cache.newEntry cfg none (τ d) (f d)) := by
        rw [hBfin]
        rw [Cache.mapGet_append_of_none ?_]
        · exact Cache.mapGet_cons_self
        · rw [Cache.mapGet_eq_none_iff]
          simp only [List.map_cons]
          rw [Cache.keys_mapEntries]
          simp only [List.mem_cons, not_or]
          exact ⟨fun h => hk0d h.symm, hdr⟩
      rw [Cache.get_eq_of_live hm (hlive d tq)]
      rfl

/-- C5 witness: the spec's concrete scenario with numeric keys — capacity
3; set 1↦1, 2↦2, 3↦3; get(1); set 4↦4: key 2 (the second-inserted) is
evicted while key 1 still returns its value. -/
theorem claim_C5_witness :
    (Cache.get ⟨3, none, true⟩ 1 7 (Cache.set ⟨3, none, true⟩ 4
        ((fun k => k) 4) none ((fun k => k) 4)
        (Cache.get ⟨3, none, true⟩ 1 6
          (Cache.setSeq ⟨3, none, true⟩ (fun k => k) (fun k => k) [1, 2, 3]
            (Cache.emptyCache : Cache Nat Nat))).2)).1 = some 1 ∧
    (Cache.get ⟨3, none, true⟩ 2 7 (Cache.set ⟨3, none, true⟩ 4
        ((fun k => k) 4) none ((fun k => k) 4)
        (Cache.get ⟨3, none, true⟩ 1 6
          (Cache.setSeq ⟨3, none, true⟩ (fun k => k) (fun k => k) [1, 2, 3]
            (Cache.emptyCache : Cache Nat Nat))).2)).1 = none :=
  ⟨((claim_C5 ⟨3, none, true⟩ 1 2 4 [3] (fun k => k) (fun k => k) 6 7
      (by decide) rfl rfl).2).1,
   ((claim_C5 ⟨3, none, true⟩ 1 2 4 [3] (fun k => k) (fun k => k) 6 7
      (by decide) rfl rfl).2).2.1⟩

/-- C9: round-trip persistence.  For every sequence of `set` calls made
through a persist-on-change cache that started from an empty adapter, a
fresh instance hydrated from the same adapter at instant `t2` returns via
`get` exactly the key/value pairs the first instance held, modulo entries
whose TTL expired by `t2`. -/
theorem claim_C9 {K V : Type} [DecidableEq K] (cfg : Config)
    (hpc : cfg.persistOnChange = true) (hcap : 1 ≤ cfg.maxSize)
    (ws : List (K × V × Option Nat × Nat)) (t2 : Nat) :
    (∀ k e, mapGet (Cache.applyWrites cfg ws Cache.emptyCache).data k = some e →
      (∀ t, e.expiresAt = some t → t2 < t) →
      (Cache.get cfg k t2 (Cache.hydrate
        (Cache.applyWrites cfg ws Cache.emptyCache).stored t2)).1 = some e.value) ∧
    (∀ k v, (Cache.get cfg k t2 (Cache.hydrate
        (Cache.applyWrites cfg ws Cache.emptyCache).stored t2)).1 = some v →
      ∃ e, mapGet (Cache.applyWrites cfg ws Cache.emptyCache).data k = some e ∧
        e.value = v) := by
  have hwfE : Cache.WF (Cache.emptyCache : Cache K V) :=
    ⟨List.nodup_nil, List.nodup_nil, fun k => Iff.rfl⟩
  have hwf : Cache.WF (Cache.applyWrites cfg ws Cache.emptyCache) :=
    Cache.wf_runOps hcap _ _ hwfE
  have hsd : (Cache.applyWrites cfg ws Cache.emptyCache).stored
      = (Cache.applyWrites cfg ws Cache.emptyCache).data :=
    Cache.stored_runOps hpc _ _ rfl
  have hnd : ((Cache.applyWrites cfg ws Cache.emptyCache).data.map Prod.fst).Nodup :=
    hwf.1
  constructor
  · intro k e hget halive
    have halive2 : Cache.entryAlive t2 e = true := by
      rw [Cache.entryAlive_iff]
      cases he : e.expiresAt with
      | none => exact Or.inl rfl
      | some t => exact Or.inr ⟨t, rfl, halive t he⟩
    have hm : mapGet (Cache.hydrate
        (Cache.applyWrites cfg ws Cache.emptyCache).stored t2).data k = some e := by
      rw [hsd]
      show mapGet ((Cache.applyWrites cfg ws Cache.emptyCache).data.filter
        (fun q => Cache.entryAlive t2 q.2)) k = some e
      exact (Cache.mapGet_filter k e hnd).mpr ⟨hget, halive2⟩
    have hnexp : Cache.isExpired t2 e = false := by
      unfold Cache.isExpired
      cases he : e.expiresAt with
      | none => rfl
      | some t =>
        have hlt := halive t he
        simp only [decide_eq_false_iff_not]
        omega
    rw [Cache.get_eq_of_live hm hnexp]
  · intro k v hv
    cases hm : mapGet (Cache.hydrate
        (Cache.applyWrites cfg ws Cache.emptyCache).stored t2).data k with
    | none =>
      rw [Cache.get_eq_of_absent hm] at hv
      exact Option.noConfusion hv
    | some e2 =>
      by_cases hexp : Cache.isExpired t2 e2 = true
      · rw [Cache.get_eq_of_expired hm hexp] at hv
        exact Option.noConfusion hv
      · rw [Bool.not_eq_true] at hexp
        rw [Cache.get_eq_of_live hm hexp] at hv
        have hv2 : some e2.value = some v := hv
        have hv3 : e2.value = v := by injection hv2
        have hm2 : mapGet ((Cache.applyWrites cfg ws Cache.emptyCache).data.filter
            (fun q => Cache.entryAlive t2 q.2)) k = some e2 := by
          rw [hsd] at hm
          exact hm
        exact ⟨e2, ((Cache.mapGet_filter k e2 hnd).mp hm2).1, hv3⟩

/-- C9 witness: two writes (one permanent, one with TTL) persisted through
an empty adapter; a fresh instance hydrated at t=50 returns the permanent
value through `get`. -/
theorem claim_C9_witness :
    (Cache.get ⟨5, none, true⟩ 1 50 (Cache.hydrate
      (Cache.applyWrites ⟨5, none, true⟩ [(1, 10, none, 0), (2, 20, some 100, 5)]
        (Cache.emptyCache : Cache Nat Nat)).stored 50)).1 = some 10 :=
  (claim_C9 ⟨5, none, true⟩ rfl (by decide)
      [(1, 10, none, 0), (2, 20, some 100, 5)] 50).1
    1 ⟨10, none, 0⟩ (by decide) (fun t ht => Option.noConfusion ht)

end Challenge3
